import Mathlib

/-!
Verification of the English text frontend (src/text/en/processor.py and
src/text/en/normalization.py) of the TTS repository.

Strings are modelled as `List Char`.  Python regular-expression
substitutions are modelled by left-to-right scanners built on a single
fueled engine `runScan`; a rule inspects the remaining text (plus a
lookbehind state) and either matches — producing a replacement and a
consumed length — or lets the scanner copy one character.  ASCII
semantics are used for `\w`, `str.upper`, `str.lower` and `str.strip`
(all inputs handled by the repository are ASCII).  The fallible call
`int(...)` inside `_expand_dollars` is modelled with `Option`: `none`
is a raised `ValueError`.
-/

/-- ASCII lowercase alphabet, used to model `str.lower` / `re.IGNORECASE`. -/
def lowerLetters : List Char := "abcdefghijklmnopqrstuvwxyz".data

/-- ASCII uppercase alphabet, used to model `str.upper`. -/
def upperLetters : List Char := "ABCDEFGHIJKLMNOPQRSTUVWXYZ".data

/-- ASCII case folding of a single character (model of Python lowercasing). -/
def lowerChar (c : Char) : Char :=
  if 65 ≤ c.toNat ∧ c.toNat ≤ 90 then lowerLetters.getD (c.toNat - 65) c else c

/-- ASCII uppercasing of a single character (model of `str.upper`). -/
def upperChar (c : Char) : Char :=
  if 97 ≤ c.toNat ∧ c.toNat ≤ 122 then upperLetters.getD (c.toNat - 97) c else c

/-- Model of `str.upper` on a string. -/
def upperL (s : List Char) : List Char := s.map upperChar

/-- ASCII letter test. -/
def isAlphaB (c : Char) : Bool := c.isAlpha

/-- ASCII digit test (`[0-9]`). -/
def isDigitB (c : Char) : Bool := c.isDigit

/-- Model of the regex class `\w` (ASCII scope). -/
def wcB (c : Char) : Bool := c.isAlpha || c.isDigit || c == '_'

/-- Model of the regex class `\s` / Python `str.strip` whitespace (ASCII scope). -/
def isPyWs (c : Char) : Bool :=
  c == ' ' || c == '\t' || c == '\n' || c == '\r' || c == '\x0b' || c == '\x0c'

/-- The opening curly bracket (escape character of mixed text). -/
def lbrace : Char := '\x7b'

/-- The closing curly bracket. -/
def rbrace : Char := '\x7d'

/-- Predicate `NoneOf P l`: no character of `l` satisfies `P`. -/
def NoneOf (P : Char → Prop) (l : List Char) : Prop := ∀ c ∈ l, ¬ P c

instance (P : Char → Prop) [DecidablePred P] (l : List Char) :
    Decidable (NoneOf P l) :=
  inferInstanceAs (Decidable (∀ c ∈ l, ¬ P c))

/-- Numeric value of a digit string (model of Python `int` on digit-only input). -/
def digitsToNat (l : List Char) : Nat := l.foldl (fun a c => a * 10 + (c.toNat - 48)) 0

/-- Model of Python `int(s)` restricted to the strings reaching it in
`_expand_dollars`: digits succeed, anything else (for instance a comma)
raises `ValueError`, modelled by `none`. -/
def pyInt (l : List Char) : Option Nat :=
  if l ≠ [] ∧ l.all isDigitB then some (digitsToNat l) else none

/-- Drop trailing characters not satisfying `isDigitB` (backtracking of a
greedy character class that must end in a digit). -/
def trimToDigit (l : List Char) : List Char :=
  (l.reverse.dropWhile (fun c => !(isDigitB c))).reverse

/-- Join string pieces with a separator (model of `str.join`). -/
def joinWith (sep : List Char) : List (List Char) → List Char
  | [] => []
  | [x] => x
  | x :: y :: tl => x ++ sep ++ joinWith sep (y :: tl)

/-- Model of Python `str.split(sep)` for a one-character separator:
keeps empty pieces, `[] ↦ [[]]`. -/
def splitOnChar (sep : Char) : List Char → List (List Char)
  | [] => [[]]
  | c :: cs =>
    if c = sep then [] :: splitOnChar sep cs
    else
      match splitOnChar sep cs with
      | [] => [[c]]
      | w :: ws => (c :: w) :: ws

/-- Worker for whitespace splitting; `acc` is the reversed current word. -/
def splitWsGo (acc : List Char) : List Char → List (List Char)
  | [] => if acc = [] then [] else [acc.reverse]
  | c :: cs =>
    if isPyWs c then (if acc = [] then [] else [acc.reverse]) ++ splitWsGo [] cs
    else splitWsGo (c :: acc) cs

/-- Model of Python `str.split()` (no arguments): whitespace runs
separate words, no empty pieces. -/
def splitWs (s : List Char) : List (List Char) := splitWsGo [] s

/-- Model of Python `str.strip()`. -/
def stripWs (l : List Char) : List Char :=
  ((l.dropWhile isPyWs).reverse.dropWhile isPyWs).reverse

/-- Reversed-digit chunks of size three, used to group a number for
spelling (lowest group first). -/
def chunk3 : List Char → List (List Char)
  | [] => []
  | [a] => [[a]]
  | [a, b] => [[a, b]]
  | a :: b :: c :: rest => [a, b, c] :: chunk3 rest

/-!  ## The scanner engine

`runScan rule stp fuel st s` models `re.sub` for the patterns used by the
repository: it walks `s` left to right keeping a lookbehind state `st`.
At each position the `rule` inspects the whole remaining text; on
`some (rep, st2, k)` the scanner emits `rep`, consumes `k + 1`
characters and continues in state `st2`; on `none` it copies one
character and updates the state with `stp`.  The fuel is always
instantiated with the length of the scanned text. -/

def runScan {σ : Type} (rule : σ → List Char → Option (List Char × σ × Nat))
    (stp : σ → Char → σ) : Nat → σ → List Char → List Char
  | 0, _, s => s
  | _ + 1, _, [] => []
  | f + 1, st, c :: cs =>
    match rule st (c :: cs) with
    | some (rep, st2, k) => rep ++ runScan rule stp f st2 (cs.drop k)
    | none => c :: runScan rule stp f (stp st c) cs

/-- Run a scanner with enough fuel for its input. -/
def scanWith {σ : Type} (rule : σ → List Char → Option (List Char × σ × Nat))
    (stp : σ → Char → σ) (st : σ) (s : List Char) : List Char :=
  runScan rule stp s.length st s

theorem runScan_nil {σ : Type} (rule : σ → List Char → Option (List Char × σ × Nat))
    (stp : σ → Char → σ) (f : Nat) (st : σ) : runScan rule stp f st [] = [] := by
  cases f <;> rfl

theorem runScan_fuel {σ : Type} (rule : σ → List Char → Option (List Char × σ × Nat))
    (stp : σ → Char → σ) :
    ∀ f1 f2 st (s : List Char), s.length ≤ f1 → s.length ≤ f2 →
      runScan rule stp f1 st s = runScan rule stp f2 st s := by
  intro f1
  induction f1 with
  | zero =>
    intro f2 st s h1 _
    have : s = [] := List.eq_nil_of_length_eq_zero (Nat.le_zero.mp h1)
    subst this
    simp [runScan_nil]
  | succ f ih =>
    intro f2 st s h1 h2
    cases s with
    | nil => simp [runScan_nil]
    | cons c cs =>
      cases f2 with
      | zero => simp at h2
      | succ g =>
        show runScan rule stp (f + 1) st (c :: cs) = runScan rule stp (g + 1) st (c :: cs)
        simp only [runScan]
        cases hr : rule st (c :: cs) with
        | none =>
          have hl : cs.length ≤ f := Nat.lt_succ_iff.mp h1
          have hl2 : cs.length ≤ g := Nat.lt_succ_iff.mp h2
          rw [ih g (stp st c) cs hl hl2]
        | some v =>
          obtain ⟨rep, st2, k⟩ := v
          have hd : (cs.drop k).length ≤ cs.length := by
            simpa using List.length_drop_le k cs
          have hl : (cs.drop k).length ≤ f :=
            le_trans hd (Nat.lt_succ_iff.mp h1)
          have hl2 : (cs.drop k).length ≤ g :=
            le_trans hd (Nat.lt_succ_iff.mp h2)
          show rep ++ runScan rule stp f st2 (cs.drop k) =
            rep ++ runScan rule stp g st2 (cs.drop k)
          rw [ih g st2 (cs.drop k) hl hl2]

/-- One-step unfolding of `scanWith` on a cons cell. -/
theorem scanWith_cons {σ : Type} (rule : σ → List Char → Option (List Char × σ × Nat))
    (stp : σ → Char → σ) (st : σ) (c : Char) (cs : List Char) :
    scanWith rule stp st (c :: cs) =
      match rule st (c :: cs) with
      | some (rep, st2, k) => rep ++ scanWith rule stp st2 (cs.drop k)
      | none => c :: scanWith rule stp (stp st c) cs := by
  show runScan rule stp (cs.length + 1) st (c :: cs) = _
  simp only [runScan]
  cases hr : rule st (c :: cs) with
  | none =>
    simp only [scanWith]
  | some v =>
    obtain ⟨rep, st2, k⟩ := v
    have hd : (cs.drop k).length ≤ cs.length := by
      simpa using List.length_drop_le k cs
    simp only [scanWith]
    rw [runScan_fuel rule stp cs.length (cs.drop k).length st2 (cs.drop k) hd le_rfl]

theorem scanWith_nil {σ : Type} (rule : σ → List Char → Option (List Char × σ × Nat))
    (stp : σ → Char → σ) (st : σ) : scanWith rule stp st [] = [] := rfl

/-- Generic identity lemma: if an invariant of the state and the remaining
text rules out every match and is preserved by copying, the scanner is the
identity on texts satisfying it. -/
theorem runScan_id {σ : Type} {rule : σ → List Char → Option (List Char × σ × Nat)}
    {stp : σ → Char → σ} {Inv : σ → List Char → Prop}
    (hr : ∀ st c cs, Inv st (c :: cs) → rule st (c :: cs) = none)
    (hs : ∀ st c cs, Inv st (c :: cs) → Inv (stp st c) cs) :
    ∀ f st s, Inv st s → runScan rule stp f st s = s := by
  intro f
  induction f with
  | zero => intro st s _; rfl
  | succ f ih =>
    intro st s hInv
    cases s with
    | nil => rfl
    | cons c cs =>
      show runScan rule stp (f + 1) st (c :: cs) = c :: cs
      simp only [runScan, hr st c cs hInv]
      rw [ih (stp st c) cs (hs st c cs hInv)]

/-- Generic preservation lemma: if no replacement contains a character
satisfying `P` then the scanner introduces no such character. -/
theorem runScan_noneOf_preserve {σ : Type}
    {rule : σ → List Char → Option (List Char × σ × Nat)} {stp : σ → Char → σ}
    {P : Char → Prop}
    (hr : ∀ st s rep st2 k, rule st s = some (rep, st2, k) → NoneOf P rep) :
    ∀ f st s, NoneOf P s → NoneOf P (runScan rule stp f st s) := by
  intro f
  induction f with
  | zero => intro st s h; exact h
  | succ f ih =>
    intro st s hs
    cases s with
    | nil => intro c hc; simp [runScan_nil] at hc
    | cons c cs =>
      show NoneOf P (runScan rule stp (f + 1) st (c :: cs))
      simp only [runScan]
      cases hm : rule st (c :: cs) with
      | none =>
        intro x hx
        rcases List.mem_cons.mp hx with h | h
        · exact hs x (h ▸ List.mem_cons_self c cs)
        · exact ih (stp st c) cs (fun y hy => hs y (List.mem_cons_of_mem c hy)) x h
      | some v =>
        obtain ⟨rep, st2, k⟩ := v
        intro x hx
        rcases List.mem_append.mp hx with h | h
        · exact hr st (c :: cs) rep st2 k hm x h
        · exact ih st2 (cs.drop k)
            (fun y hy => hs y (List.mem_cons_of_mem c (List.mem_of_mem_drop hy))) x h

/-- Generic elimination lemma: if the rule matches at every character
satisfying `P` and no replacement contains such a character, the output is
free of them (given enough fuel). -/
theorem runScan_noneOf_elim {σ : Type}
    {rule : σ → List Char → Option (List Char × σ × Nat)} {stp : σ → Char → σ}
    {P : Char → Prop}
    (hr : ∀ st s rep st2 k, rule st s = some (rep, st2, k) → NoneOf P rep)
    (hm : ∀ st c cs, rule st (c :: cs) = none → ¬ P c) :
    ∀ f st s, s.length ≤ f → NoneOf P (runScan rule stp f st s) := by
  intro f
  induction f with
  | zero =>
    intro st s hl
    have : s = [] := List.eq_nil_of_length_eq_zero (Nat.le_zero.mp hl)
    subst this
    intro c hc
    simp [runScan_nil] at hc
  | succ f ih =>
    intro st s hl
    cases s with
    | nil => intro c hc; simp [runScan_nil] at hc
    | cons c cs =>
      show NoneOf P (runScan rule stp (f + 1) st (c :: cs))
      simp only [runScan]
      cases hmr : rule st (c :: cs) with
      | none =>
        intro x hx
        rcases List.mem_cons.mp hx with h | h
        · exact h ▸ hm st c cs hmr
        · exact ih (stp st c) cs (Nat.lt_succ_iff.mp hl) x h
      | some v =>
        obtain ⟨rep, st2, k⟩ := v
        intro x hx
        rcases List.mem_append.mp hx with h | h
        · exact hr st (c :: cs) rep st2 k hmr x h
        · have hd : (cs.drop k).length ≤ f :=
            le_trans (by simpa using List.length_drop_le k cs) (Nat.lt_succ_iff.mp hl)
          exact ih st2 (cs.drop k) hd x h

/-!  ## Model of `inflect.number_to_words`

`normalization.py` delegates the spelling of cardinals and ordinals to the
third-party `inflect` library.  The definitions below model the library's
behaviour for the invocations the repository makes
(`andword=''`/default `andword='and'`, `group=2` with `zero='oh'`, and
ordinal input strings).  The model is total: beyond the library's scale
table (where the real library raises `NumOutOfRangeError`) a placeholder
scale word is used; no theorem below depends on that region. -/

/-- Spelled forms of 0–19 (index 0 unused by callers that skip zero). -/
def onesList : List (List Char) :=
  ["".data, "one".data, "two".data, "three".data, "four".data, "five".data,
   "six".data, "seven".data, "eight".data, "nine".data, "ten".data,
   "eleven".data, "twelve".data, "thirteen".data, "fourteen".data,
   "fifteen".data, "sixteen".data, "seventeen".data, "eighteen".data,
   "nineteen".data]

def onesWord (n : Nat) : List Char := onesList.getD n []

/-- Spelled tens (index 2–9). -/
def tensList : List (List Char) :=
  ["".data, "".data, "twenty".data, "thirty".data, "forty".data, "fifty".data,
   "sixty".data, "seventy".data, "eighty".data, "ninety".data]

def tensWord (n : Nat) : List Char := tensList.getD n []

/-- Spelled form of 1–99 (hyphenated compounds, as `inflect` produces). -/
def twoDigitWords (v : Nat) : List Char :=
  if v < 20 then onesWord v
  else tensWord (v / 10) ++ (if v % 10 = 0 then [] else '-' :: onesWord (v % 10))

/-- Spelled form of a nonzero three-digit group; `useAnd` selects the
library's default `andword='and'` against the `andword=''` call. -/
def threeDigitWords (useAnd : Bool) (v : Nat) : List Char :=
  if v / 100 = 0 then twoDigitWords (v % 100)
  else
    onesWord (v / 100) ++ " hundred".data ++
      (if v % 100 = 0 then []
       else (if useAnd then " and ".data else " ".data) ++ twoDigitWords (v % 100))

/-- Scale names of `inflect`'s group table (index = number of thousand
groups skipped).  Beyond the table the real library raises; the model
uses a placeholder word. -/
def scaleList : List (List Char) :=
  ["".data, " thousand".data, " million".data, " billion".data,
   " trillion".data, " quadrillion".data, " quintillion".data,
   " sextillion".data, " septillion".data, " octillion".data,
   " nonillion".data, " decillion".data]

def scaleName (k : Nat) : List Char := scaleList.getD k " zillion".data

/-- Three-digit group values of `n`, lowest group first. -/
def groupVals (n : Nat) : List Nat :=
  (chunk3 (Nat.toDigits 10 n).reverse).map (fun g => digitsToNat g.reverse)

/-- Model of `inflect.number_to_words(n)` (cardinal): nonzero groups are
spelled highest first, tagged with their scale and joined with ", ". -/
def cardinalWords (useAnd : Bool) (n : Nat) : List Char :=
  if n = 0 then "zero".data
  else
    joinWith ", ".data
      (((groupVals n).enum.filter (fun p => p.2 ≠ 0)).reverse.map
        (fun p => threeDigitWords useAnd p.2 ++ scaleName p.1))

/-- Model of a two-digit pair in `inflect`'s `group=2` mode with
`zero='oh'`: a leading zero is spoken "oh". -/
def pairWords (v : Nat) : List Char :=
  if v < 10 then "oh ".data ++ onesWord v else twoDigitWords v

/-- Model of `number_to_words(n, andword='', zero='oh', group=2)` followed
by `.replace(', ', ' ')`, for the four-digit years the code sends there. -/
def group2Words (n : Nat) : List Char :=
  pairWords (n / 100) ++ " ".data ++ pairWords (n % 100)

/-- Ending-rewrite table of `inflect`'s word-ordinal conversion. -/
def ordSuffixTable : List (List Char × List Char) :=
  [("one".data, "first".data), ("two".data, "second".data),
   ("three".data, "third".data), ("five".data, "fifth".data),
   ("eight".data, "eighth".data), ("nine".data, "ninth".data),
   ("twelve".data, "twelfth".data)]

/-- Turn a spelled cardinal into the spelled ordinal (model of
`inflect`'s ordinal word rules). -/
def ordinalize (w : List Char) : List Char :=
  match ordSuffixTable.find? (fun pr => pr.1.isSuffixOf w) with
  | some pr => w.take (w.length - pr.1.length) ++ pr.2
  | none =>
    if w.getLast? = some 'y' then w.take (w.length - 1) ++ "ieth".data
    else w ++ "th".data

/-- Model of `_expand_ordinal`: `inflect.number_to_words` on a string like
"3rd" spells the ordinal of its numeric part (default `andword='and'`). -/
def ordinalWords (digits : List Char) : List Char :=
  ordinalize (cardinalWords true (digitsToNat digits))

/-- Model of `_expand_number` (src/text/en/normalization.py lines 83–98). -/
def expandNumber (n : Nat) : List Char :=
  if 1000 < n ∧ n < 3000 then
    if n = 2000 then "two thousand".data
    else if 2000 < n ∧ n < 2010 then
      "two thousand ".data ++ cardinalWords true (n % 100)
    else if n % 100 = 0 then cardinalWords true (n / 100) ++ " hundred".data
    else group2Words n
  else cardinalWords false n

/-- Model of `_expand_dollars` (lines 58–76): `int()` on a piece holding a
comma raises, hence `Option`. -/
def expandDollars (m : List Char) : Option (List Char) :=
  let parts := splitOnChar '.' m
  if 2 < parts.length then some (m ++ " dollars".data)
  else
    let p0 := parts.getD 0 []
    let p1 := parts.getD 1 []
    match (if p0 = [] then some 0 else pyInt p0),
        (if parts.length ≤ 1 ∨ p1 = [] then some 0 else pyInt p1) with
    | some dollars, some cents =>
      if dollars ≠ 0 ∧ cents ≠ 0 then
        some (Nat.toDigits 10 dollars ++
          (if dollars = 1 then " dollar".data else " dollars".data) ++
          ", ".data ++ Nat.toDigits 10 cents ++
          (if cents = 1 then " cent".data else " cents".data))
      else if dollars ≠ 0 then
        some (Nat.toDigits 10 dollars ++
          (if dollars = 1 then " dollar".data else " dollars".data))
      else if cents ≠ 0 then
        some (Nat.toDigits 10 cents ++
          (if cents = 1 then " cent".data else " cents".data))
      else some "zero dollars".data
    | _, _ => none

/-!  ## The six substitution passes of `normalize_numbers` -/

/-- Character class `[0-9,]` of `_comma_number_re` and `_pounds_re`. -/
def commaClass (c : Char) : Bool := isDigitB c || c == ','

/-- Character class `[0-9.,]` of `_dollars_re`. -/
def dollarClass (c : Char) : Bool := isDigitB c || c == ',' || c == '.'

/-- Rule of `re.sub(_comma_number_re, _remove_commas, ·)`:
`([0-9][0-9,]+[0-9])` matched greedily, commas removed. -/
def commaRule (_ : Unit) (s : List Char) : Option (List Char × Unit × Nat) :=
  match s with
  | [] => none
  | c :: _ =>
    if isDigitB c then
      let m := trimToDigit (s.takeWhile commaClass)
      if 3 ≤ m.length then some (m.filter (fun x => !(x == ',')), (), m.length - 1)
      else none
    else none

/-- Rule of `re.sub(_pounds_re, r'\1 pounds', ·)`: `£([0-9,]*[0-9]+)`. -/
def poundsRule (_ : Unit) (s : List Char) : Option (List Char × Unit × Nat) :=
  match s with
  | '£' :: cs =>
    let m := trimToDigit (cs.takeWhile commaClass)
    if m = [] then none else some (m ++ " pounds".data, (), m.length)
  | _ => none

/-- Rule of `re.sub(_decimal_number_re, _expand_decimal_point, ·)`:
`([0-9]+\.[0-9]+)`, the point spoken as " point ". -/
def decimalRule (_ : Unit) (s : List Char) : Option (List Char × Unit × Nat) :=
  match s with
  | [] => none
  | c :: _ =>
    if isDigitB c then
      let r1 := s.takeWhile isDigitB
      match s.drop r1.length with
      | '.' :: d :: _ =>
        if isDigitB d then
          let r2 := (s.drop (r1.length + 1)).takeWhile isDigitB
          some (r1 ++ " point ".data ++ r2, (), r1.length + r2.length)
        else none
      | _ => none
    else none

/-- The four ordinal suffixes of `_ordinal_re`. -/
def ordSuffix2 (a b : Char) : Bool :=
  (a == 's' && b == 't') || (a == 'n' && b == 'd') ||
    (a == 'r' && b == 'd') || (a == 't' && b == 'h')

/-- Rule of `re.sub(_ordinal_re, _expand_ordinal, ·)`: `[0-9]+(st|nd|rd|th)`. -/
def ordinalRule (_ : Unit) (s : List Char) : Option (List Char × Unit × Nat) :=
  match s with
  | [] => none
  | c :: _ =>
    if isDigitB c then
      let r := s.takeWhile isDigitB
      match s.drop r.length with
      | a :: b :: _ =>
        if ordSuffix2 a b then some (ordinalWords r, (), r.length + 1) else none
      | _ => none
    else none

/-- Rule of `re.sub(_number_re, _expand_number, ·)`: `[0-9]+`. -/
def numberRule (_ : Unit) (s : List Char) : Option (List Char × Unit × Nat) :=
  match s with
  | [] => none
  | c :: _ =>
    if isDigitB c then
      let r := s.takeWhile isDigitB
      some (expandNumber (digitsToNat r), (), r.length - 1)
    else none

/-- Trivial state update for the stateless scanners. -/
def noStep (st : Unit) (_ : Char) : Unit := st

def scanComma (s : List Char) : List Char := scanWith commaRule noStep () s
def scanPounds (s : List Char) : List Char := scanWith poundsRule noStep () s
def scanDecimal (s : List Char) : List Char := scanWith decimalRule noStep () s
def scanOrdinal (s : List Char) : List Char := scanWith ordinalRule noStep () s
def scanNumber (s : List Char) : List Char := scanWith numberRule noStep () s

/-- Fueled scanner of `re.sub(_dollars_re, _expand_dollars, ·)`:
`\$([0-9.,]*[0-9]+)`.  A raised `ValueError` from `int()` propagates
as `none`. -/
def dollF : Nat → List Char → Option (List Char)
  | 0, s => some s
  | _ + 1, [] => some []
  | f + 1, c :: cs =>
    if c = '$' then
      let m := trimToDigit (cs.takeWhile dollarClass)
      if m = [] then (dollF f cs).map (fun r => c :: r)
      else
        match expandDollars m with
        | none => none
        | some rep => (dollF f (cs.drop m.length)).map (fun r => rep ++ r)
    else (dollF f cs).map (fun r => c :: r)

def scanDollars (s : List Char) : Option (List Char) := dollF s.length s

/-- Model of `normalize_numbers` (lines 101–111): the six passes in
source order. -/
def normalizeNumbers (s : List Char) : Option (List Char) :=
  (scanDollars (scanPounds (scanComma s))).map
    (fun u => scanNumber (scanOrdinal (scanDecimal u)))

/-!  ## `normalize_punctuation`, `collapse_whitespace`, abbreviations -/

/-- Rule of Python `str.replace(o :: os, new)`: replace every
non-overlapping occurrence, scanning left to right. -/
def replaceRule (o : Char) (os new : List Char) (_ : Unit) (s : List Char) :
    Option (List Char × Unit × Nat) :=
  match s with
  | [] => none
  | c :: cs => if c = o ∧ os.isPrefixOf cs then some (new, (), os.length) else none

/-- Model of Python `str.replace` for a nonempty pattern `o :: os`. -/
def pyReplace (o : Char) (os new : List Char) (s : List Char) : List Char :=
  scanWith (replaceRule o os new) noStep () s

/-- Sentence-final punctuation of `dash_pattern` / `parentheses_pattern`
lookarounds (`[.,!?]`). -/
def isSentPunct (c : Char) : Bool := c == '.' || c == ',' || c == '!' || c == '?'

/-- Lookbehind state: the previous two characters of the original text. -/
abbrev Look2 : Type := Option Char × Option Char

def look2Step (st : Look2) (c : Char) : Look2 := (st.2, some c)

/-- Does `(?<=[.,!?] )-- ` match at the current position? -/
def dashHit (st : Look2) (s : List Char) : Bool :=
  match st, s with
  | (some c2, some c1), '-' :: '-' :: ' ' :: _ => isSentPunct c2 && c1 == ' '
  | _, _ => false

/-- Rule of `dash_pattern.sub("", ·)`: `(?<=[.,!?] )-- `. -/
def dashRule (st : Look2) (s : List Char) : Option (List Char × Look2 × Nat) :=
  if dashHit st s then some ([], (some '-', some ' '), 2) else none

def isOpenBr (c : Char) : Bool := c == '(' || c == '['
def isCloseBr (c : Char) : Bool := c == ')' || c == ']'

/-- Rule of `parentheses_pattern.sub("", ·)`:
`(?<=[.,!?] )[([]|[)\]](?=[.,!?])|^[([]|[)\]]$` (the `$` also matches
before a final newline). -/
def parenRule (st : Look2) (s : List Char) : Option (List Char × Look2 × Nat) :=
  match s with
  | [] => none
  | c :: cs =>
    let behindOk : Bool :=
      match st with
      | (some c2, some ' ') => isSentPunct c2
      | _ => false
    let atStart : Bool := st.2.isNone
    let aheadOk : Bool :=
      match cs with
      | d :: _ => isSentPunct d
      | [] => false
    let atEnd : Bool := cs.isEmpty || cs == ['\n']
    if (isOpenBr c && (behindOk || atStart)) || (isCloseBr c && (aheadOk || atEnd)) then
      some ([], (st.2, some c), 0)
    else none

def scanDash (s : List Char) : List Char := scanWith dashRule look2Step (none, none) s

def scanParen (s : List Char) : List Char := scanWith parenRule look2Step (none, none) s

/-- Model of `normalize_punctuation` (lines 129–151): the eleven rewrite
steps in source order. -/
def normalizePunct (s : List Char) : List Char :=
  let t1 := pyReplace ';' [] ",".data s
  let t2 := pyReplace ':' [] ",".data t1
  let t3 := scanDash t2
  let t4 := pyReplace ' ' "--".data ",".data t3
  let t5 := pyReplace ' ' "- ".data ", ".data t4
  let t6 := pyReplace '-' [] " ".data t5
  let t7 := scanParen t6
  let t8 := pyReplace ')' [] ",".data t7
  let t9 := pyReplace ' ' "(".data ", ".data t8
  let t10 := pyReplace ']' [] ",".data t9
  pyReplace ' ' "[".data ", ".data t10

/-- Model of `collapse_whitespace`: `re.sub(r"\s+", " ", ·)`.  The Boolean
records whether the previous character belonged to a whitespace run. -/
def collapseWsGo (inRun : Bool) : List Char → List Char
  | [] => []
  | c :: cs =>
    if isPyWs c then (if inRun then [] else [' ']) ++ collapseWsGo true cs
    else c :: collapseWsGo false cs

def collapseWs (s : List Char) : List Char := collapseWsGo false s

/-- Model of `add_punctuation` (lines 154–162). -/
def sentenceEnd : List Char := "!,.:;?".data

def addPunct (t : List Char) : List Char :=
  match t.getLast? with
  | none => t
  | some c => if c ∈ sentenceEnd then t else t ++ ['.']

/-- Case-insensitive prefix test: does `s` start with the (lowercase)
pattern `p`? -/
def swCI : List Char → List Char → Bool
  | [], _ => true
  | _ :: _, [] => false
  | p :: ps, c :: cs => (lowerChar c == p) && swCI ps cs

/-- Rule of one abbreviation pass `re.sub(r"\b<stem>\.", rep, ·,
re.IGNORECASE)`.  The state is true when the previous character is a word
character (so no `\b` boundary exists); `pat` is `<stem> ++ "."`. -/
def abbrevRule (pat rep : List Char) (st : Bool) (s : List Char) :
    Option (List Char × Bool × Nat) :=
  if !st && swCI pat s then some (rep, false, pat.length - 1) else none

def wordStep (_ : Bool) (c : Char) : Bool := wcB c

def scanAbbrev (pat rep : List Char) (s : List Char) : List Char :=
  scanWith (abbrevRule pat rep) wordStep false s

/-- The abbreviation table of `normalization.py` (lines 16–39), each stem
already suffixed with its anchoring period. -/
def abbrevTable : List (List Char × List Char) :=
  [("mrs.".data, "Missis".data), ("mr.".data, "Mister".data),
   ("dr.".data, "Doctor".data), ("st.".data, "Saint".data),
   ("co.".data, "Company".data), ("jr.".data, "Junior".data),
   ("maj.".data, "Major".data), ("gen.".data, "General".data),
   ("drs.".data, "Doctors".data), ("rev.".data, "Reverend".data),
   ("lt.".data, "Lieutenant".data), ("hon.".data, "Honorable".data),
   ("sgt.".data, "Sergeant".data), ("capt.".data, "Captain".data),
   ("esq.".data, "Esquire".data), ("ltd.".data, "Limited".data),
   ("col.".data, "Colonel".data), ("ft.".data, "Fort".data),
   ("etc.".data, "etcetera".data)]

/-- Model of `expand_abbreviations` (lines 114–120). -/
def expandAbbreviations (s : List Char) : List Char :=
  abbrevTable.foldl (fun t pr => scanAbbrev pr.1 pr.2 t) s

/-- Model of `normalize_text` (lines 165–173): punctuation append, number
expansion, abbreviation expansion, whitespace collapse.  `none` is a
`ValueError` raised inside `normalize_numbers`. -/
def normalizeText (t : List Char) : Option (List Char) :=
  (normalizeNumbers (addPunct t)).map
    (fun u => collapseWs (expandAbbreviations u))

/-!  ## The symbol vocabulary of `processor.py` -/

def padStr : List Char := "_PAD_".data
def eosStr : List Char := "_EOS_".data
def unkStr : List Char := "_UNK_".data

def englishChars : List Char :=
  "ABCDEFGHIJKLMNOPQRSTUVWXYZabcdefghijklmnopqrstuvwxyz".data

/-- Source list `_punctuation = "!'(),-.:;? "`. -/
def punctuationChars : List Char :=
  ['!', '\x27', '(', ')', ',', '-', '.', ':', ';', '?', ' ']

/-- Source `_cmudict_symbols`, in the order they are written in the source (the
Python set's iteration order is unspecified; the listing order is the
determinization chosen by this embedding — every theorem refers to IDs
through `idOf`, never through numerals of this region). -/
def cmudictSymbols : List (List Char) :=
  ["AA".data, "AA0".data, "AA1".data, "AA2".data, "AE".data, "AE0".data,
   "AE1".data, "AE2".data, "AH".data, "AH0".data, "AH1".data, "AH2".data,
   "AO".data, "AO0".data, "AO1".data, "AO2".data, "AW".data, "AW0".data,
   "AW1".data, "AW2".data, "AY".data, "AY0".data, "AY1".data, "AY2".data,
   "B".data, "CH".data, "D".data, "DH".data, "EH".data, "EH0".data,
   "EH1".data, "EH2".data, "ER".data, "ER0".data, "ER1".data, "ER2".data,
   "EY".data, "EY0".data, "EY1".data, "EY2".data, "F".data, "G".data,
   "HH".data, "IH".data, "IH0".data, "IH1".data, "IH2".data, "IY".data,
   "IY0".data, "IY1".data, "IY2".data, "JH".data, "K".data, "L".data,
   "M".data, "N".data, "NG".data, "OW".data, "OW0".data, "OW1".data,
   "OW2".data, "OY".data, "OY0".data, "OY1".data, "OY2".data, "P".data,
   "R".data, "S".data, "SH".data, "T".data, "TH".data, "UH".data,
   "UH0".data, "UH1".data, "UH2".data, "UW".data, "UW0".data, "UW1".data,
   "UW2".data, "V".data, "W".data, "Y".data, "Z".data, "ZH".data]

/-- Source `symbols`: controls, letters, punctuation, then "@"-prefixed phonetic
units. -/
def symbols : List (List Char) :=
  [padStr, eosStr, unkStr] ++ englishChars.map (fun c => [c]) ++
    punctuationChars.map (fun c => [c]) ++
    cmudictSymbols.map (fun s => '@' :: s)

/-- First index of `t` in `l`, counting from `k`. -/
def idxFrom (t : List Char) : List (List Char) → Nat → Option Nat
  | [], _ => none
  | x :: xs, k => if x = t then some k else idxFrom t xs (k + 1)

/-- Source `_symbol_to_id[s]` (the enumeration index of a symbol; symbols are
pairwise distinct so first index and dictionary value agree). -/
def idOf (t : List Char) : Nat := (idxFrom t symbols 0).getD 0

/-- The end-of-sequence ID `_symbol_to_id[_eos]`. -/
def eosIdx : Nat := idOf eosStr

/-- Source `_keep_symbols`. -/
def keepSymbol (s : List Char) : Bool :=
  symbols.contains s && !(s == padStr) && !(s == eosStr)

/-- Source `_symbols_to_sequence`. -/
def symbolsToSeq (xs : List (List Char)) : List Nat :=
  xs.filterMap (fun s => if keepSymbol s then some (idOf s) else none)

/-- Source `_symbols_to_sequence` applied to a plain string (Python iterates its
characters). -/
def litToSeq (s : List Char) : List Nat := symbolsToSeq (s.map (fun c => [c]))

/-- Source `_arpabet_to_sequence`. -/
def arpabetToSeq (t : List Char) : List Nat :=
  symbolsToSeq ((splitWs t).map (fun w => '@' :: w))

/-!  ## The escape-aware encoder -/

/-- Split a string at its first closing brace: `some (before, after)`. -/
def findCloseSplit : List Char → Option (List Char × List Char)
  | [] => none
  | c :: cs =>
    if c = rbrace then some ([], cs)
    else (findCloseSplit cs).map (fun pr => (c :: pr.1, pr.2))

/-- Model of `_curly_re.match` (`(.*?)\{(.+?)\}(.*)` with lazy groups):
the first opening brace that is followed — at distance at least two — by
a closing brace wins; the span runs to the first such closing brace. -/
def curlyMatch : List Char → Option (List Char × List Char × List Char)
  | [] => none
  | c :: cs =>
    if c = lbrace then
      match cs with
      | [] => none
      | x :: rest =>
        match findCloseSplit rest with
        | some pr => some ([], x :: pr.1, pr.2)
        | none => (curlyMatch cs).map (fun t => (c :: t.1, t.2.1, t.2.2))
    else (curlyMatch cs).map (fun t => (c :: t.1, t.2.1, t.2.2))

/-- Fueled form of the encoder loop of `text_to_sequence` (lines 101–108). -/
def encodeLoopF : Nat → List Char → List Nat
  | 0, s => litToSeq s
  | f + 1, s =>
    match curlyMatch s with
    | none => litToSeq s
    | some (g1, g2, g3) => litToSeq g1 ++ arpabetToSeq g2 ++ encodeLoopF f g3

/-- The encoder loop: repeatedly match `_curly_re`, emitting literal and
phonetic IDs; on failure emit the remainder as literal text. -/
def encodeLoop (s : List Char) : List Nat := encodeLoopF s.length s

/-!  ## Dictionary loading -/

/-- Does `(?<=\w)\((\d)\)` match at the current position?  The state is
the previous original character. -/
def altHit (st : Option Char) (s : List Char) : Bool :=
  match st with
  | none => false
  | some c =>
    match s with
    | a :: d :: b :: _ => a == '(' && b == ')' && isDigitB d && wcB c
    | _ => false

/-- Rule of `alt_entry_pattern.sub(r"{\1}", ·)`: `(?<=\w)\((\d)\)`. -/
def altRule (st : Option Char) (s : List Char) :
    Option (List Char × Option Char × Nat) :=
  if altHit st s then some ([lbrace, s.getD 1 '0', rbrace], some ')', 2) else none

def altStep (_ : Option Char) (c : Char) : Option Char := some c

/-- Model of `_format_alt_entry`. -/
def formatAltEntry (s : List Char) : List Char :=
  scanWith altRule altStep none s

/-- Split on every non-overlapping occurrence of two consecutive spaces
(Python `str.split("  ")`), fueled. -/
def split2F : Nat → List Char → List (List Char)
  | 0, s => [s]
  | _ + 1, [] => [[]]
  | f + 1, c :: cs =>
    match c, cs with
    | ' ', ' ' :: rest =>
      [] :: split2F f rest
    | _, _ =>
      match split2F f cs with
      | [] => [[c]]
      | w :: ws => (c :: w) :: ws

def splitTwo (l : List Char) : List (List Char) := split2F l.length l

def parseLine (l : List Char) : Option (List Char × List Char) :=
  match splitTwo (stripWs l) with
  | [w, p] => some (formatAltEntry w, p)
  | _ => none

/-- Model of `load_cmudict` applied to the consumed line range (lines
127–133905 of the resource): each line is parsed; the first malformed
line makes the whole load fail, leaving no partial mapping. -/
def loadLines : List (List Char) → Option (List (List Char × List Char))
  | [] => some []
  | l :: ls =>
    match parseLine l with
    | none => none
    | some e => (loadLines ls).map (fun r => e :: r)

/-!  ## The pronunciation mixer and `text_to_sequence`

The call `random() < 0.5` is modelled by a stream of Booleans indexed by
the number of draws made so far (`true` = the drawn float was below 0.5);
Python draws only for words found in the dictionary. -/

/-- Model of `_get_pronunciation` for one word, given the draw used if the
word is found. -/
def getPron (d : List Char → Option (List Char)) (draw : Bool) (w : List Char) :
    List Char :=
  match d (upperL w) with
  | none => w
  | some ph => if draw then lbrace :: (ph ++ [rbrace]) else w

/-- Worker of `mix_pronunciation`: `k` counts the draws consumed. -/
def mixGo (d : List Char → Option (List Char)) (dr : Nat → Bool) :
    Nat → List (List Char) → List (List Char)
  | _, [] => []
  | k, w :: ws =>
    match d (upperL w) with
    | none => w :: mixGo d dr k ws
    | some ph =>
      (if dr k then lbrace :: (ph ++ [rbrace]) else w) :: mixGo d dr (k + 1) ws

/-- Model of `mix_pronunciation` (lines 84–90). -/
def mixPron (d : List Char → Option (List Char)) (dr : Nat → Bool)
    (t : List Char) : List Char :=
  joinWith [' '] (mixGo d dr 0 (splitOnChar ' ' t))

/-- Model of `text_to_sequence` (lines 93–113).  `none` is a `ValueError`
raised during normalization. -/
def textToSequence (d : List Char → Option (List Char)) (dr : Nat → Bool)
    (t : List Char) : Option (List Nat) :=
  (normalizeText t).map (fun u => encodeLoop (mixPron d dr u) ++ [eosIdx])

/-- The pipeline the specification describes (its §2 control flow):
Punctuation Normalizer first, then numbers, abbreviations, whitespace
collapse, mixer, encoder.  Stated from the spec's words only, for
comparison with `textToSequence`. -/
def claimedPipelineSequence (d : List Char → Option (List Char))
    (dr : Nat → Bool) (t : List Char) : Option (List Nat) :=
  (normalizeNumbers (normalizePunct t)).map
    (fun u =>
      encodeLoop (mixPron d dr (collapseWs (expandAbbreviations u))) ++ [eosIdx])

/-- The everywhere-undefined dictionary (used for concrete evaluations). -/
def emptyDict : List Char → Option (List Char) := fun _ => none

/-- The draw stream that never substitutes. -/
def noDraws : Nat → Bool := fun _ => false

/-- The draw stream that always substitutes. -/
def yesDraws : Nat → Bool := fun _ => true

/-!  ## C7: the Punctuation Normalizer removes `;`, `:` and `-` -/

theorem pyReplace_rep_eq {o : Char} {os new : List Char} {st : Unit}
    {s rep : List Char} {st2 : Unit} {k : Nat}
    (h : replaceRule o os new st s = some (rep, st2, k)) : rep = new := by
  cases s with
  | nil => simp [replaceRule] at h
  | cons c cs =>
    simp only [replaceRule] at h
    split at h
    · exact (Prod.mk.injEq _ _ _ _ ▸ Option.some.inj h).1.symm
    · simp at h

/-- A `str.replace` pass whose replacement avoids `P` preserves absence
of `P`-characters. -/
theorem pyReplace_preserve {P : Char → Prop} (o : Char) (os new : List Char)
    (s : List Char) (hnew : NoneOf P new) (hs : NoneOf P s) :
    NoneOf P (pyReplace o os new s) :=
  runScan_noneOf_preserve
    (fun _ s' rep _ k h => (pyReplace_rep_eq h) ▸ hnew) s.length () s hs

/-- Replacing the single character `o` everywhere eliminates it, when the
replacement avoids it. -/
theorem pyReplace_elim (o : Char) (new : List Char) (s : List Char)
    (hnew : NoneOf (fun c => c = o) new) :
    NoneOf (fun c => c = o) (pyReplace o [] new s) := by
  apply runScan_noneOf_elim
    (fun _ s' rep _ k h => (pyReplace_rep_eq h) ▸ hnew)
  · intro st c cs h
    simp only [replaceRule] at h
    by_cases hc : c = o ∧ List.isPrefixOf [] cs
    · simp [hc] at h
    · intro hco
      exact hc ⟨hco, by simp [List.isPrefixOf]⟩
  · exact le_rfl


theorem dashRule_rep_eq {st : Look2} {s rep : List Char} {st2 : Look2} {k : Nat}
    (h : dashRule st s = some (rep, st2, k)) : rep = [] := by
  simp only [dashRule] at h
  split at h
  · exact (Prod.mk.injEq _ _ _ _ ▸ Option.some.inj h).1.symm
  · simp at h

theorem parenRule_rep_eq {st : Look2} {s rep : List Char} {st2 : Look2} {k : Nat}
    (h : parenRule st s = some (rep, st2, k)) : rep = [] := by
  cases s with
  | nil => simp [parenRule] at h
  | cons c cs =>
    simp only [parenRule] at h
    split at h
    · exact (Prod.mk.injEq _ _ _ _ ▸ Option.some.inj h).1.symm
    · simp at h

/-- The dash-deletion pass only removes characters. -/
theorem scanDash_preserve {P : Char → Prop} (s : List Char) (hs : NoneOf P s) :
    NoneOf P (scanDash s) :=
  runScan_noneOf_preserve
    (fun _ _ _ _ _ h => by
      rw [dashRule_rep_eq h]
      intro c hc
      simp at hc)
    s.length (none, none) s hs

/-- The parenthesis-deletion pass only removes characters. -/
theorem scanParen_preserve {P : Char → Prop} (s : List Char) (hs : NoneOf P s) :
    NoneOf P (scanParen s) :=
  runScan_noneOf_preserve
    (fun _ _ _ _ _ h => by
      rw [parenRule_rep_eq h]
      intro c hc
      simp at hc)
    s.length (none, none) s hs

theorem normalizePunct_noSemi (s : List Char) :
    NoneOf (fun c => c = ';') (normalizePunct s) := by
  apply pyReplace_preserve _ _ _ _ (by decide)
  apply pyReplace_preserve _ _ _ _ (by decide)
  apply pyReplace_preserve _ _ _ _ (by decide)
  apply pyReplace_preserve _ _ _ _ (by decide)
  apply scanParen_preserve
  apply pyReplace_preserve _ _ _ _ (by decide)
  apply pyReplace_preserve _ _ _ _ (by decide)
  apply pyReplace_preserve _ _ _ _ (by decide)
  apply scanDash_preserve
  apply pyReplace_preserve _ _ _ _ (by decide)
  exact pyReplace_elim ';' ",".data s (by decide)

theorem normalizePunct_noColon (s : List Char) :
    NoneOf (fun c => c = ':') (normalizePunct s) := by
  apply pyReplace_preserve _ _ _ _ (by decide)
  apply pyReplace_preserve _ _ _ _ (by decide)
  apply pyReplace_preserve _ _ _ _ (by decide)
  apply pyReplace_preserve _ _ _ _ (by decide)
  apply scanParen_preserve
  apply pyReplace_preserve _ _ _ _ (by decide)
  apply pyReplace_preserve _ _ _ _ (by decide)
  apply pyReplace_preserve _ _ _ _ (by decide)
  apply scanDash_preserve
  exact pyReplace_elim ':' ",".data _ (by decide)

theorem normalizePunct_noDash (s : List Char) :
    NoneOf (fun c => c = '-') (normalizePunct s) := by
  apply pyReplace_preserve _ _ _ _ (by decide)
  apply pyReplace_preserve _ _ _ _ (by decide)
  apply pyReplace_preserve _ _ _ _ (by decide)
  apply pyReplace_preserve _ _ _ _ (by decide)
  apply scanParen_preserve
  exact pyReplace_elim '-' " ".data _ (by decide)

/-- C7.  For every input text, the output of the Punctuation Normalizer
contains no `;`, no `:`, and no `-`; the empty input yields the empty
output. -/
theorem c7_punctuation_reduction :
    (∀ s : List Char, ';' ∉ normalizePunct s ∧ ':' ∉ normalizePunct s ∧
        '-' ∉ normalizePunct s) ∧
      normalizePunct [] = [] := by
  refine ⟨fun s => ⟨fun h => ?_, fun h => ?_, fun h => ?_⟩, rfl⟩
  · exact normalizePunct_noSemi s ';' h rfl
  · exact normalizePunct_noColon s ':' h rfl
  · exact normalizePunct_noDash s '-' h rfl

/-!  ## C10: the undocumented final-period stage -/

/-- C10.  `normalize_text` starts by appending a final period: a non-empty
input whose last character is outside `"!,.:;?"` is processed with `'.'`
appended before number and abbreviation expansion, while the empty input
and inputs already ending in one of those characters are passed on
unchanged. -/
theorem c10_add_punctuation_stage :
    (∀ t : List Char,
        normalizeText t =
          (normalizeNumbers (addPunct t)).map
            (fun u => collapseWs (expandAbbreviations u))) ∧
      (∀ (t : List Char) (c : Char), t.getLast? = some c → c ∉ sentenceEnd →
        addPunct t = t ++ ['.']) ∧
      addPunct [] = [] ∧
      (∀ (t : List Char) (c : Char), t.getLast? = some c → c ∈ sentenceEnd →
        addPunct t = t) := by
  refine ⟨fun t => rfl, fun t c hlast hnot => ?_, rfl, fun t c hlast hmem => ?_⟩
  · simp [addPunct, hlast, hnot]
  · simp [addPunct, hlast, hmem]

/-- Witness for `c10_add_punctuation_stage` at concrete inputs. -/
theorem c10_add_punctuation_stage_witness :
    addPunct "abc".data = "abc".data ++ ['.'] ∧ addPunct "ok?".data = "ok?".data :=
  ⟨c10_add_punctuation_stage.2.1 "abc".data 'c' (by decide) (by decide),
   c10_add_punctuation_stage.2.2.2 "ok?".data '?' (by decide) (by decide)⟩

/-!  ## C3: an unterminated opening bracket -/

theorem findCloseSplit_none {s : List Char} (h : rbrace ∉ s) :
    findCloseSplit s = none := by
  induction s with
  | nil => rfl
  | cons c cs ih =>
    simp only [findCloseSplit]
    have hc : ¬ c = rbrace := fun he => h (he ▸ List.mem_cons_self c cs)
    rw [if_neg hc, ih (fun hm => h (List.mem_cons_of_mem c hm))]
    rfl

theorem curlyMatch_none_of_noClose {s : List Char} (h : rbrace ∉ s) :
    curlyMatch s = none := by
  induction s with
  | nil => rfl
  | cons c cs ih =>
    have hcs : rbrace ∉ cs := fun hm => h (List.mem_cons_of_mem c hm)
    simp only [curlyMatch]
    by_cases hc : c = lbrace
    · rw [if_pos hc]
      cases cs with
      | nil => rfl
      | cons x rest =>
        show (match findCloseSplit rest with
              | some pr => some ([], x :: pr.1, pr.2)
              | none =>
                Option.map (fun t => (c :: t.1, t.2.1, t.2.2)) (curlyMatch (x :: rest))) =
            none
        rw [findCloseSplit_none (fun hm => hcs (List.mem_cons_of_mem x hm))]
        rw [ih hcs]
        rfl
    · rw [if_neg hc, ih hcs]
      rfl

/-- A text with no closing bracket at all is encoded entirely through the
literal-character filter. -/
theorem encodeLoop_noClose {s : List Char} (h : rbrace ∉ s) :
    encodeLoop s = litToSeq s := by
  show encodeLoopF s.length s = litToSeq s
  cases hl : s.length with
  | zero => rfl
  | succ f =>
    simp only [encodeLoopF, curlyMatch_none_of_noClose h]

/-- C3 counterexample.  On the mixed text `"{HH"` — an opening bracket
with no matching closing bracket — the encoder does **not** emit the
phonetic-unit ID of `HH`; it emits the two literal-character IDs of
`'H'`, `'H'` (the claim predicts the one-element phonetic encoding). -/
theorem c3_counterexample :
    encodeLoop "\x7bHH".data = [idOf ['H'], idOf ['H']] ∧
      arpabetToSeq "HH".data = [idOf ('@' :: "HH".data)] ∧
      encodeLoop "\x7bHH".data ≠ arpabetToSeq "HH".data := by
  refine ⟨by decide, by decide, by decide⟩

/-- C3 (amended).  A mixed text containing an opening bracket `'{'` but no
closing bracket `'}'` anywhere is not treated as a phonetic span: the
single-pass regex fails to match, the whole remaining text is encoded as
literal characters, and the bracket itself yields no ID because it is not
in the vocabulary. -/
theorem c3_unterminated_bracket_literal (s : List Char)
    (hno : rbrace ∉ s) :
    encodeLoop s = litToSeq s ∧ litToSeq [lbrace] = [] :=
  ⟨encodeLoop_noClose hno, by decide⟩

/-- Witness for `c3_unterminated_bracket_literal` at `"{HH"`. -/
theorem c3_unterminated_bracket_literal_witness :
    encodeLoop "\x7bHH".data = litToSeq "\x7bHH".data ∧ litToSeq [lbrace] = [] :=
  c3_unterminated_bracket_literal "\x7bHH".data (by decide)

/-!  ## C4: the bracketed-span example -/

/-- C4 counterexample.  Encoding the mixed text
`"hello {HH AH0 L OW1} world"` emits **four** phonetic-unit IDs for the
bracketed span, not three as claimed: the span has four
whitespace-separated tokens. -/
theorem c4_counterexample :
    encodeLoop "hello \x7bHH AH0 L OW1\x7d world".data =
        litToSeq "hello ".data ++ arpabetToSeq "HH AH0 L OW1".data ++
          litToSeq " world".data ∧
      (arpabetToSeq "HH AH0 L OW1".data).length = 4 ∧ (4 : Nat) ≠ 3 := by
  refine ⟨by decide, by decide, by decide⟩

/-- C4 (amended).  Encoding `"hello {HH AH0 L OW1} world"` emits the
literal spans `"hello "` and `" world"` through the literal-character
table, the bracketed span as exactly four phonetic-unit IDs (one per
token `HH`, `AH0`, `L`, `OW1`), and no ID for the bracket characters
themselves (they are not in the vocabulary). -/
theorem c4_encoder_example :
    encodeLoop "hello \x7bHH AH0 L OW1\x7d world".data =
        litToSeq "hello ".data ++
          [idOf "@HH".data, idOf "@AH0".data, idOf "@L".data, idOf "@OW1".data] ++
          litToSeq " world".data ∧
      (litToSeq "hello ".data).length = 6 ∧ (litToSeq " world".data).length = 6 ∧
      litToSeq [lbrace] = [] ∧ litToSeq [rbrace] = [] := by
  refine ⟨by decide, by decide, by decide, by decide, by decide⟩

/-!  ## C5: the numeral-expansion examples -/

/-- C5 counterexample.  The Numeral Expander maps `"1,234"` to
`"twelve thirty-four"` — the comma pass turns it into `1234`, which falls
into the year range 1001–2999 and is read as paired two-digit numbers —
not to `"one thousand two hundred thirty-four"` as claimed. -/
theorem c5_counterexample :
    normalizeNumbers "1,234".data = some "twelve thirty-four".data ∧
      some "twelve thirty-four".data ≠
        some "one thousand two hundred thirty-four".data := by
  refine ⟨by decide, by decide⟩

/-- C5 (amended).  The Numeral Expander maps `"1,234"` to
`"twelve thirty-four"` (year-style pairing after comma stripping), and
the remaining four examples as claimed: `"$5.50"` →
`"five dollars, fifty cents"`, `"1984"` → `"nineteen eighty-four"`,
`"2000"` → `"two thousand"`, `"3rd"` → `"third"`. -/
theorem c5_numeral_examples :
    normalizeNumbers "1,234".data = some "twelve thirty-four".data ∧
      normalizeNumbers "$5.50".data = some "five dollars, fifty cents".data ∧
      normalizeNumbers "1984".data = some "nineteen eighty-four".data ∧
      normalizeNumbers "2000".data = some "two thousand".data ∧
      normalizeNumbers "3rd".data = some "third".data := by
  refine ⟨by decide, by decide, by decide, by decide, by decide⟩

/-!  ## C2: the stage order of `text_to_sequence` -/

set_option maxHeartbeats 4000000 in
/-- C2 counterexample.  On the raw text `"a;b"` the claimed pipeline
(Punctuation Normalizer first) and the implemented `text_to_sequence`
disagree: the code never invokes the Punctuation Normalizer, so the `;`
survives to the ID sequence (and a final `'.'` is appended), while the
claimed pipeline would have rewritten `;` to `,`. -/
theorem c2_counterexample :
    textToSequence emptyDict noDraws "a;b".data ≠
        claimedPipelineSequence emptyDict noDraws "a;b".data ∧
      textToSequence emptyDict noDraws "a;b".data =
        some [idOf ['a'], idOf [';'], idOf ['b'], idOf ['.'], eosIdx] ∧
      claimedPipelineSequence emptyDict noDraws "a;b".data =
        some [idOf ['a'], idOf [','], idOf ['b'], eosIdx] := by
  have h1 : textToSequence emptyDict noDraws "a;b".data =
      some [idOf ['a'], idOf [';'], idOf ['b'], idOf ['.'], eosIdx] := by rfl
  have h2 : claimedPipelineSequence emptyDict noDraws "a;b".data =
      some [idOf ['a'], idOf [','], idOf ['b'], eosIdx] := by rfl
  refine ⟨?_, h1, h2⟩
  rw [h1, h2]
  decide

/-- C2 (amended).  `text_to_sequence` applies, in order: the final-period
append, the Numeral Expander (its six passes in source order), the
Abbreviation Expander, whitespace collapse, the Pronunciation Mixer and
the Escape-Aware Encoder.  The Punctuation Normalizer is not invoked
anywhere in this pipeline. -/
theorem c2_stage_order (d : List Char → Option (List Char)) (dr : Nat → Bool)
    (t : List Char) :
    textToSequence d dr t =
      (scanDollars (scanPounds (scanComma (addPunct t)))).map
        (fun u =>
          encodeLoop
            (mixPron d dr
              (collapseWs
                (expandAbbreviations (scanNumber (scanOrdinal (scanDecimal u)))))) ++
            [eosIdx]) := by
  cases h : scanDollars (scanPounds (scanComma (addPunct t))) with
  | none =>
    have hn : normalizeText t = none := by
      unfold normalizeText normalizeNumbers
      rw [h]
      rfl
    unfold textToSequence
    rw [hn, Option.map_none', Option.map_none']
  | some u =>
    have hn : normalizeText t =
        some (collapseWs
          (expandAbbreviations (scanNumber (scanOrdinal (scanDecimal u))))) := by
      unfold normalizeText normalizeNumbers
      rw [h]
      rfl
    unfold textToSequence
    rw [hn, Option.map_some', Option.map_some']

/-!  ## C1: the end-of-sequence ID -/

theorem idxFrom_some {t : List Char} :
    ∀ (l : List (List Char)) (k j : Nat), idxFrom t l k = some j →
      k ≤ j ∧ l.getD (j - k) [] = t := by
  intro l
  induction l with
  | nil => intro k j h; simp [idxFrom] at h
  | cons x xs ih =>
    intro k j h
    simp only [idxFrom] at h
    by_cases hx : x = t
    · rw [if_pos hx] at h
      have : k = j := Option.some.inj h
      subst this
      simp [hx]
    · rw [if_neg hx] at h
      obtain ⟨hk, hg⟩ := ih (k + 1) j h
      refine ⟨le_trans (Nat.le_succ k) hk, ?_⟩
      have : j - k = (j - (k + 1)) + 1 := by omega
      rw [this]
      simpa using hg

/-- Only the end-of-sequence symbol has ID 1. -/
theorem idOf_eq_one {t : List Char} (h : idOf t = 1) : t = eosStr := by
  unfold idOf at h
  cases hq : idxFrom t symbols 0 with
  | none => rw [hq] at h; simp at h
  | some j =>
    rw [hq] at h
    simp at h
    subst h
    have h2 := (idxFrom_some symbols 0 1 hq).2
    have h3 : symbols.getD (1 - 0) [] = eosStr := by rfl
    rw [h3] at h2
    exact h2.symm

/-- The filtered emitter never outputs the end-of-sequence ID. -/
theorem symbolsToSeq_no_eos (xs : List (List Char)) : (1 : Nat) ∉ symbolsToSeq xs := by
  intro h
  obtain ⟨s, _, hif⟩ := List.mem_filterMap.mp h
  by_cases hk : keepSymbol s
  · rw [if_pos hk] at hif
    have h1 : idOf s = 1 := Option.some.inj hif
    have hs : s = eosStr := idOf_eq_one h1
    rw [hs] at hk
    exact absurd hk (by decide)
  · rw [if_neg hk] at hif
    exact Option.noConfusion hif

theorem encodeLoopF_no_eos : ∀ (f : Nat) (s : List Char), (1 : Nat) ∉ encodeLoopF f s := by
  intro f
  induction f with
  | zero => intro s; exact symbolsToSeq_no_eos _
  | succ f ih =>
    intro s
    show (1 : Nat) ∉ encodeLoopF (f + 1) s
    simp only [encodeLoopF]
    cases curlyMatch s with
    | none => exact symbolsToSeq_no_eos _
    | some v =>
      obtain ⟨g1, g2, g3⟩ := v
      intro h
      rcases List.mem_append.mp h with h1 | h2
      · rcases List.mem_append.mp h1 with ha | hb
        · exact symbolsToSeq_no_eos _ ha
        · exact symbolsToSeq_no_eos _ hb
      · exact ih g3 h2

/-- C1 (amended).  Whenever `text_to_sequence` returns (the normalization
stage does not raise), the sequence has length at least one, contains the
end-of-sequence ID exactly once, and ends with it; empty input yields the
one-element end-of-sequence sequence for every dictionary with no entry
under the empty-string key. -/
theorem c1_eos_terminated :
    (∀ (d : List Char → Option (List Char)) (dr : Nat → Bool) (t : List Char)
        (seq : List Nat), textToSequence d dr t = some seq →
      1 ≤ seq.length ∧ seq.count eosIdx = 1 ∧ seq.getLast? = some eosIdx) ∧
      (∀ (d : List Char → Option (List Char)) (dr : Nat → Bool), d [] = none →
        textToSequence d dr [] = some [eosIdx]) := by
  constructor
  · intro d dr t seq h
    obtain ⟨u, hu, hseq⟩ := Option.map_eq_some'.mp h
    have heos : eosIdx = 1 := rfl
    have hne : eosIdx ∉ encodeLoop (mixPron d dr u) := by
      rw [heos]
      exact encodeLoopF_no_eos _ _
    subst hseq
    refine ⟨by simp, ?_, ?_⟩
    · rw [List.count_append]
      rw [List.count_eq_zero.mpr hne]
      simp
    · simp
  · intro d dr hd
    show (normalizeText []).map _ = _
    have h0 : normalizeText [] = some [] := rfl
    rw [h0, Option.map_some']
    have hm : mixPron d dr [] = [] := by
      show joinWith [' '] (mixGo d dr 0 [[]]) = []
      simp only [mixGo]
      have hup : upperL [] = [] := rfl
      rw [hup, hd]
      rfl
    rw [hm]
    rfl

/-- Witness for `c1_eos_terminated` at a concrete dictionary and text. -/
theorem c1_eos_terminated_witness :
    (1 ≤ [idOf ['a'], idOf ['.'], eosIdx].length ∧
        [idOf ['a'], idOf ['.'], eosIdx].count eosIdx = 1 ∧
        [idOf ['a'], idOf ['.'], eosIdx].getLast? = some eosIdx) ∧
      textToSequence emptyDict noDraws [] = some [eosIdx] :=
  ⟨c1_eos_terminated.1 emptyDict noDraws "a".data [idOf ['a'], idOf ['.'], eosIdx]
      (by rfl),
   c1_eos_terminated.2 emptyDict noDraws rfl⟩

/-- C1 counterexample.  On the input `"$1,.5"` (with any dictionary)
`text_to_sequence` returns no sequence at all: `_expand_dollars` calls
`int("1,")`, which raises `ValueError` — so the claim "for every input
text, text_to_sequence returns a sequence of length at least 1" fails. -/
theorem c1_counterexample :
    textToSequence emptyDict noDraws "$1,.5".data = none := by rfl

/-!  ## C9: the Pronunciation Mixer -/

/-- Number of dictionary hits among the first `i` tokens — the index of
the random draw consumed by token `i` when that token is found. -/
def hitsBefore (d : List Char → Option (List Char)) (ws : List (List Char))
    (i : Nat) : Nat :=
  ((ws.take i).filter (fun w => (d (upperL w)).isSome)).length

theorem mixGo_length (d : List Char → Option (List Char)) (dr : Nat → Bool) :
    ∀ (ws : List (List Char)) (k : Nat), (mixGo d dr k ws).length = ws.length := by
  intro ws
  induction ws with
  | nil => intro k; rfl
  | cons w ws ih =>
    intro k
    simp only [mixGo]
    cases d (upperL w) with
    | none => simp [ih k]
    | some ph => simp [ih (k + 1)]

theorem mixGo_miss (d : List Char → Option (List Char)) (dr : Nat → Bool) :
    ∀ (ws : List (List Char)) (k i : Nat), i < ws.length →
      d (upperL (ws.getD i [])) = none →
      (mixGo d dr k ws).getD i [] = ws.getD i [] := by
  intro ws
  induction ws with
  | nil => intro k i hi; simp at hi
  | cons w ws ih =>
    intro k i hi hm
    cases i with
    | zero =>
      simp only [List.getD_cons_zero] at hm ⊢
      simp only [mixGo, hm]
      rfl
    | succ i =>
      simp only [List.getD_cons_succ] at hm ⊢
      have hi' : i < ws.length := by simpa using hi
      simp only [mixGo]
      cases d (upperL w) with
      | none => simpa using ih k i hi' hm
      | some ph => simpa using ih (k + 1) i hi' hm

theorem hitsBefore_cons_succ (d : List Char → Option (List Char))
    (w : List Char) (ws : List (List Char)) (i : Nat) :
    hitsBefore d (w :: ws) (i + 1) =
      (if (d (upperL w)).isSome then 1 else 0) + hitsBefore d ws i := by
  simp only [hitsBefore, List.take_succ_cons, List.filter_cons]
  cases hw : (d (upperL w)).isSome <;> simp <;> omega

theorem mixGo_hit (d : List Char → Option (List Char)) (dr : Nat → Bool) :
    ∀ (ws : List (List Char)) (k i : Nat) (ph : List Char), i < ws.length →
      d (upperL (ws.getD i [])) = some ph →
      (mixGo d dr k ws).getD i [] =
        if dr (k + hitsBefore d ws i) then lbrace :: (ph ++ [rbrace])
        else ws.getD i [] := by
  intro ws
  induction ws with
  | nil => intro k i ph hi; simp at hi
  | cons w ws ih =>
    intro k i ph hi hm
    cases i with
    | zero =>
      simp only [List.getD_cons_zero] at hm ⊢
      simp only [mixGo, hm]
      have h0 : hitsBefore d (w :: ws) 0 = 0 := rfl
      rw [h0]
      rfl
    | succ i =>
      simp only [List.getD_cons_succ] at hm ⊢
      have hi' : i < ws.length := by simpa using hi
      simp only [mixGo]
      rw [hitsBefore_cons_succ]
      cases hw : d (upperL w) with
      | none =>
        simpa using ih k i ph hi' hm
      | some q =>
        have hih := ih (k + 1) i ph hi' hm
        have harith : k + 1 + hitsBefore d ws i = k + (1 + hitsBefore d ws i) := by
          omega
        rw [harith] at hih
        simpa using hih

/-- C9.  The mixer splits on single spaces and rejoins with single spaces
in order (first and second conjuncts); a token whose uppercased form is
absent from the dictionary is kept literal whatever the draw stream; a
token that is found is replaced by its bracketed transcription exactly
when the draw consumed for it (draw number `hitsBefore`) is below 0.5
(`true` in this model), and kept literal otherwise. -/
theorem c9_mixer_decision :
    (∀ (d : List Char → Option (List Char)) (dr : Nat → Bool) (t : List Char),
        mixPron d dr t = joinWith [' '] (mixGo d dr 0 (splitOnChar ' ' t))) ∧
      (∀ (d : List Char → Option (List Char)) (dr : Nat → Bool)
          (ws : List (List Char)), (mixGo d dr 0 ws).length = ws.length) ∧
      (∀ (d : List Char → Option (List Char)) (dr : Nat → Bool)
          (ws : List (List Char)) (i : Nat), i < ws.length →
        d (upperL (ws.getD i [])) = none →
        (mixGo d dr 0 ws).getD i [] = ws.getD i []) ∧
      (∀ (d : List Char → Option (List Char)) (dr : Nat → Bool)
          (ws : List (List Char)) (i : Nat) (ph : List Char), i < ws.length →
        d (upperL (ws.getD i [])) = some ph →
        (mixGo d dr 0 ws).getD i [] =
          if dr (hitsBefore d ws i) then lbrace :: (ph ++ [rbrace])
          else ws.getD i []) := by
  refine ⟨fun d dr t => rfl, fun d dr ws => mixGo_length d dr ws 0,
    fun d dr ws i hi hm => mixGo_miss d dr ws 0 i hi hm,
    fun d dr ws i ph hi hm => ?_⟩
  have := mixGo_hit d dr ws 0 i ph hi hm
  simpa using this

/-- Dictionary used by the mixer witness. -/
def sampleDict : List Char → Option (List Char) :=
  fun w => if w = "AB".data then some "X Y".data else none

/-- Witness for `c9_mixer_decision` on the two-token text `"ab cd"`. -/
theorem c9_mixer_decision_witness :
    (mixGo sampleDict yesDraws 0 (splitOnChar ' ' "ab cd".data)).getD 1 [] =
        (splitOnChar ' ' "ab cd".data).getD 1 [] ∧
      (mixGo sampleDict yesDraws 0 (splitOnChar ' ' "ab cd".data)).getD 0 [] =
        (if yesDraws (hitsBefore sampleDict (splitOnChar ' ' "ab cd".data) 0) then
          lbrace :: ("X Y".data ++ [rbrace])
        else (splitOnChar ' ' "ab cd".data).getD 0 []) :=
  ⟨c9_mixer_decision.2.2.1 sampleDict yesDraws (splitOnChar ' ' "ab cd".data) 1
      (by decide) (by decide),
   c9_mixer_decision.2.2.2 sampleDict yesDraws (splitOnChar ' ' "ab cd".data) 0
      "X Y".data (by decide) (by decide)⟩

/-!  ## C8: dictionary loading -/

/-- The entry a well-formed line contributes: the alternate-entry
normalized headword paired with the transcription. -/
def entryOf (l : List Char) : List Char × List Char :=
  (formatAltEntry ((splitTwo (stripWs l)).getD 0 []),
   (splitTwo (stripWs l)).getD 1 [])

theorem parseLine_none_of_one {l : List Char}
    (h : (splitTwo (stripWs l)).length = 1) : parseLine l = none := by
  unfold parseLine
  cases hq : splitTwo (stripWs l) with
  | nil => rfl
  | cons a rest =>
    cases rest with
    | nil => rfl
    | cons b rest2 =>
      rw [hq] at h
      cases rest2 with
      | nil => simp at h
      | cons c rest3 => simp at h

theorem parseLine_wf {l : List Char}
    (h : (splitTwo (stripWs l)).length = 2) : parseLine l = some (entryOf l) := by
  unfold parseLine entryOf
  cases hq : splitTwo (stripWs l) with
  | nil => rw [hq] at h; simp at h
  | cons a rest =>
    cases rest with
    | nil => rw [hq] at h; simp at h
    | cons b rest2 =>
      cases rest2 with
      | nil => rfl
      | cons c rest3 => rw [hq] at h; simp at h

theorem loadLines_fails {lines : List (List Char)} {l : List Char}
    (hmem : l ∈ lines) (h : (splitTwo (stripWs l)).length = 1) :
    loadLines lines = none := by
  induction lines with
  | nil => simp at hmem
  | cons a as ih =>
    rcases List.mem_cons.mp hmem with he | hmem2
    · subst he
      show loadLines (l :: as) = none
      simp only [loadLines, parseLine_none_of_one h]
    · show loadLines (a :: as) = none
      simp only [loadLines]
      cases parseLine a with
      | none => rfl
      | some e => rw [ih hmem2]; rfl

theorem loadLines_ok {lines : List (List Char)}
    (h : ∀ l ∈ lines, (splitTwo (stripWs l)).length = 2) :
    loadLines lines = some (lines.map entryOf) := by
  induction lines with
  | nil => rfl
  | cons a as ih =>
    show loadLines (a :: as) = _
    simp only [loadLines]
    rw [parseLine_wf (h a (List.mem_cons_self a as))]
    rw [ih (fun l hl => h l (List.mem_cons_of_mem a hl))]
    rfl

/-- Scanner state after passing the characters of `w`. -/
def stAfter (st : Option Char) (w : List Char) : Option Char :=
  match w.getLast? with
  | none => st
  | some c => some c

theorem altRule_none_of_ne {st : Option Char} {c : Char} {cs : List Char}
    (h : ¬ c = '(') : altRule st (c :: cs) = none := by
  unfold altRule
  have hf : altHit st (c :: cs) = false := by
    unfold altHit
    cases st with
    | none => rfl
    | some x =>
      cases cs with
      | nil => rfl
      | cons d cs2 =>
        cases cs2 with
        | nil => rfl
        | cons b t => simp [h]
  rw [hf]
  rfl

theorem stAfter_cons (st : Option Char) (c : Char) (w : List Char) :
    stAfter st (c :: w) = stAfter (some c) w := by
  cases w with
  | nil => rfl
  | cons x t =>
    unfold stAfter
    rw [List.getLast?_cons_cons]
    cases hg : (x :: t).getLast? with
    | none => exact absurd (List.getLast?_eq_none_iff.mp hg) (by simp)
    | some d => rfl

/-- The alternate-entry scanner copies any brace-free, parenthesis-free
prefix verbatim. -/
theorem altScan_pass :
    ∀ (w : List Char) (st : Option Char) (rest : List Char), '(' ∉ w →
      scanWith altRule altStep st (w ++ rest) =
        w ++ scanWith altRule altStep (stAfter st w) rest := by
  intro w
  induction w with
  | nil => intro st rest _; rfl
  | cons c w' ih =>
    intro st rest hno
    have hc : ¬ c = '(' := fun he => hno (he ▸ List.mem_cons_self c w')
    have hw' : '(' ∉ w' := fun hm => hno (List.mem_cons_of_mem c hm)
    show scanWith altRule altStep st (c :: (w' ++ rest)) = _
    rw [scanWith_cons, altRule_none_of_ne hc]
    show c :: scanWith altRule altStep (altStep st c) (w' ++ rest) = _
    rw [ih (altStep st c) rest hw']
    rw [stAfter_cons]
    rfl

/-- C8.  A consumed line lacking the two-space delimiter makes the load
fail with no partial mapping; when every consumed line is well-formed the
load succeeds with one entry per line; and a headword `WORD(d)` (a
parenthesized digit directly after a word character) is stored under the
normalized key `WORD{d}`, distinct from the key `WORD` of the plain
headword. -/
theorem c8_load_failfast_and_alt_keys :
    (∀ (lines : List (List Char)) (l : List Char), l ∈ lines →
        (splitTwo (stripWs l)).length = 1 → loadLines lines = none) ∧
      (∀ lines : List (List Char),
        (∀ l ∈ lines, (splitTwo (stripWs l)).length = 2) →
        loadLines lines = some (lines.map entryOf)) ∧
      (∀ (w : List Char) (dch c : Char), '(' ∉ w → isDigitB dch = true →
        w.getLast? = some c → wcB c = true →
        formatAltEntry (w ++ ('(' :: dch :: [')'])) =
            w ++ (lbrace :: dch :: [rbrace]) ∧
          formatAltEntry w = w ∧ w ++ (lbrace :: dch :: [rbrace]) ≠ w) := by
  refine ⟨fun lines l hm h => loadLines_fails hm h, fun lines h => loadLines_ok h,
    fun w dch c hno hd hlast hwc => ⟨?_, ?_, ?_⟩⟩
  · show scanWith altRule altStep none (w ++ ('(' :: dch :: [')'])) = _
    rw [altScan_pass w none _ hno]
    have hst : stAfter none w = some c := by simp [stAfter, hlast]
    rw [hst]
    have hrule : altRule (some c) ('(' :: dch :: [')']) =
        some ([lbrace, dch, rbrace], some ')', 2) := by
      unfold altRule altHit
      simp [hd, hwc]
    rw [scanWith_cons, hrule]
    rfl
  · have hp := altScan_pass w none [] hno
    rw [List.append_nil] at hp
    show scanWith altRule altStep none w = w
    rw [hp, scanWith_nil]
    simp
  · intro he
    have := congrArg List.length he
    simp at this

/-- Witness for `c8_load_failfast_and_alt_keys` at concrete lines and a
concrete alternate headword. -/
theorem c8_load_failfast_and_alt_keys_witness :
    loadLines ["NODELIM".data] = none ∧
      loadLines ["AB  X Y".data] = some (["AB  X Y".data].map entryOf) ∧
      (formatAltEntry ("READ".data ++ ('(' :: '2' :: [')'])) =
          "READ".data ++ (lbrace :: '2' :: [rbrace]) ∧
        formatAltEntry "READ".data = "READ".data ∧
        "READ".data ++ (lbrace :: '2' :: [rbrace]) ≠ "READ".data) :=
  ⟨c8_load_failfast_and_alt_keys.1 ["NODELIM".data] "NODELIM".data (by decide)
      (by decide),
   c8_load_failfast_and_alt_keys.2.1 ["AB  X Y".data] (by decide),
   c8_load_failfast_and_alt_keys.2.2 "READ".data '2' 'D' (by decide) (by decide)
      (by decide) (by decide)⟩

/-!  ## C6 (first half): `normalize_numbers` is idempotent

Strategy: every digit of the input is consumed by the final `[0-9]+`
pass, whose replacements are spelled words; a digit-free text is a fixed
point of all six passes (and makes no `int()` call). -/

/-- The character property "is a digit". -/
def DigitP (c : Char) : Prop := isDigitB c = true

instance : DecidablePred DigitP :=
  fun c => inferInstanceAs (Decidable (isDigitB c = true))

/-- Predicate `NoDigit l`: the text contains no digit. -/
def NoDigit (l : List Char) : Prop := NoneOf DigitP l

instance (l : List Char) : Decidable (NoDigit l) :=
  inferInstanceAs (Decidable (NoneOf DigitP l))

theorem noDigit_cons {c : Char} {l : List Char} (hc : isDigitB c = false)
    (hl : NoDigit l) : NoDigit (c :: l) := by
  intro x hx
  rcases List.mem_cons.mp hx with he | hm
  · subst he; simp [DigitP, hc]
  · exact hl x hm

theorem noDigit_tail {c : Char} {l : List Char} (h : NoDigit (c :: l)) :
    NoDigit l := fun x hx => h x (List.mem_cons_of_mem c hx)

theorem noDigit_head {c : Char} {l : List Char} (h : NoDigit (c :: l)) :
    isDigitB c = false := by
  have := h c (List.mem_cons_self c l)
  simp [DigitP] at this
  simp [this]

theorem noneOf_append {P : Char → Prop} {a b : List Char}
    (ha : NoneOf P a) (hb : NoneOf P b) : NoneOf P (a ++ b) := by
  intro c hc
  rcases List.mem_append.mp hc with h | h
  · exact ha c h
  · exact hb c h

theorem noneOf_take {P : Char → Prop} {l : List Char} (h : NoneOf P l) (n : Nat) :
    NoneOf P (l.take n) := fun c hc => h c (List.take_subset n l hc)

theorem noneOf_getD {P : Char → Prop} :
    ∀ (L : List (List Char)) (i : Nat) (d : List Char),
      (∀ x ∈ L, NoneOf P x) → NoneOf P d → NoneOf P (L.getD i d) := by
  intro L
  induction L with
  | nil => intro i d _ hd; simpa [List.getD] using hd
  | cons x L ih =>
    intro i d hL hd
    cases i with
    | zero => simpa using hL x (List.mem_cons_self x L)
    | succ i =>
      simp only [List.getD_cons_succ]
      exact ih i d (fun y hy => hL y (List.mem_cons_of_mem x hy)) hd

theorem noneOf_joinWith {P : Char → Prop} {sep : List Char}
    (hsep : NoneOf P sep) :
    ∀ parts : List (List Char), (∀ x ∈ parts, NoneOf P x) →
      NoneOf P (joinWith sep parts) := by
  intro parts
  induction parts with
  | nil => intro _ c hc; simp [joinWith] at hc
  | cons x tl ih =>
    intro hp
    cases tl with
    | nil => simpa [joinWith] using hp x (List.mem_cons_self x [])
    | cons y tl2 =>
      show NoneOf P (x ++ sep ++ joinWith sep (y :: tl2))
      refine noneOf_append (noneOf_append ?_ hsep) ?_
      · exact hp x (List.mem_cons_self x _)
      · exact ih (fun z hz => hp z (List.mem_cons_of_mem x hz))

theorem onesWord_noDigit (n : Nat) : NoDigit (onesWord n) :=
  noneOf_getD onesList n [] (by decide) (by decide)

theorem tensWord_noDigit (n : Nat) : NoDigit (tensWord n) :=
  noneOf_getD tensList n [] (by decide) (by decide)

theorem twoDigitWords_noDigit (v : Nat) : NoDigit (twoDigitWords v) := by
  unfold twoDigitWords
  split
  · exact onesWord_noDigit v
  · refine noneOf_append (tensWord_noDigit _) ?_
    split
    · intro c hc; simp at hc
    · exact noDigit_cons (by decide) (onesWord_noDigit _)

theorem threeDigitWords_noDigit (useAnd : Bool) (v : Nat) :
    NoDigit (threeDigitWords useAnd v) := by
  unfold threeDigitWords
  split
  · exact twoDigitWords_noDigit _
  · refine noneOf_append (noneOf_append (onesWord_noDigit _) (by decide)) ?_
    split
    · intro c hc; simp at hc
    · refine noneOf_append ?_ (twoDigitWords_noDigit _)
      split
      · decide
      · decide

theorem scaleName_noDigit (k : Nat) : NoDigit (scaleName k) :=
  noneOf_getD scaleList k _ (by decide) (by decide)

theorem cardinalWords_noDigit (useAnd : Bool) (n : Nat) :
    NoDigit (cardinalWords useAnd n) := by
  unfold cardinalWords
  split
  · decide
  · refine noneOf_joinWith (by decide) _ ?_
    intro x hx
    obtain ⟨p, _, hpe⟩ := List.mem_map.mp hx
    rw [← hpe]
    exact noneOf_append (threeDigitWords_noDigit _ _) (scaleName_noDigit _)

theorem pairWords_noDigit (v : Nat) : NoDigit (pairWords v) := by
  unfold pairWords
  split
  · exact noneOf_append (by decide) (onesWord_noDigit _)
  · exact twoDigitWords_noDigit _

theorem group2Words_noDigit (n : Nat) : NoDigit (group2Words n) :=
  noneOf_append (noneOf_append (pairWords_noDigit _) (by decide))
    (pairWords_noDigit _)

theorem ordinalize_noDigit {w : List Char} (h : NoDigit w) :
    NoDigit (ordinalize w) := by
  unfold ordinalize
  cases hf : ordSuffixTable.find? (fun pr => pr.1.isSuffixOf w) with
  | some pr =>
    refine noneOf_append (noneOf_take h _) ?_
    have hmem : pr ∈ ordSuffixTable := List.mem_of_find?_eq_some hf
    have : ∀ q ∈ ordSuffixTable, NoDigit q.2 := by decide
    exact this pr hmem
  | none =>
    show NoDigit (if w.getLast? = some 'y' then
      w.take (w.length - 1) ++ "ieth".data else w ++ "th".data)
    split
    · exact noneOf_append (noneOf_take h _)
        (show NoneOf DigitP "ieth".data by decide)
    · exact noneOf_append h (show NoneOf DigitP "th".data by decide)

theorem ordinalWords_noDigit (digits : List Char) : NoDigit (ordinalWords digits) :=
  ordinalize_noDigit (cardinalWords_noDigit true _)

theorem expandNumber_noDigit (n : Nat) : NoDigit (expandNumber n) := by
  unfold expandNumber
  split
  · split
    · decide
    · split
      · exact noneOf_append (by decide) (cardinalWords_noDigit true _)
      · split
        · exact noneOf_append (cardinalWords_noDigit true _) (by decide)
        · exact group2Words_noDigit n
  · exact cardinalWords_noDigit false n

theorem trimToDigit_nil {l : List Char} (h : NoDigit l) : trimToDigit l = [] := by
  unfold trimToDigit
  have : l.reverse.dropWhile (fun c => !(isDigitB c)) = [] := by
    rw [List.dropWhile_eq_nil_iff]
    intro x hx
    have := h x (List.mem_reverse.mp hx)
    simp [DigitP] at this
    simp [this]
  rw [this]
  rfl

theorem commaRule_none {c : Char} {cs : List Char} (h : NoDigit (c :: cs)) :
    commaRule () (c :: cs) = none := by
  simp [commaRule, noDigit_head h]

theorem poundsRule_none {c : Char} {cs : List Char} (h : NoDigit (c :: cs)) :
    poundsRule () (c :: cs) = none := by
  unfold poundsRule
  split
  · rename_i cs2 heq
    have hcs2 : NoDigit cs2 := by
      have : cs2 = cs := ((List.cons.injEq _ _ _ _ ▸ heq).2).symm
      rw [this]
      exact noDigit_tail h
    have : trimToDigit (cs2.takeWhile commaClass) = [] :=
      trimToDigit_nil (fun x hx => hcs2 x (List.takeWhile_subset _ hx))
    simp [this]
  · rfl

theorem decimalRule_none {c : Char} {cs : List Char} (h : NoDigit (c :: cs)) :
    decimalRule () (c :: cs) = none := by
  simp [decimalRule, noDigit_head h]

theorem ordinalRule_none {c : Char} {cs : List Char} (h : NoDigit (c :: cs)) :
    ordinalRule () (c :: cs) = none := by
  simp [ordinalRule, noDigit_head h]

theorem numberRule_none {c : Char} {cs : List Char} (h : NoDigit (c :: cs)) :
    numberRule () (c :: cs) = none := by
  simp [numberRule, noDigit_head h]

theorem scanComma_id {s : List Char} (h : NoDigit s) : scanComma s = s :=
  @runScan_id _ _ _ (fun _ l => NoDigit l)
    (fun _ c cs hl => commaRule_none hl) (fun _ _ _ hl => noDigit_tail hl)
    s.length () s h

theorem scanPounds_id {s : List Char} (h : NoDigit s) : scanPounds s = s :=
  @runScan_id _ _ _ (fun _ l => NoDigit l)
    (fun _ c cs hl => poundsRule_none hl) (fun _ _ _ hl => noDigit_tail hl)
    s.length () s h

theorem scanDecimal_id {s : List Char} (h : NoDigit s) : scanDecimal s = s :=
  @runScan_id _ _ _ (fun _ l => NoDigit l)
    (fun _ c cs hl => decimalRule_none hl) (fun _ _ _ hl => noDigit_tail hl)
    s.length () s h

theorem scanOrdinal_id {s : List Char} (h : NoDigit s) : scanOrdinal s = s :=
  @runScan_id _ _ _ (fun _ l => NoDigit l)
    (fun _ c cs hl => ordinalRule_none hl) (fun _ _ _ hl => noDigit_tail hl)
    s.length () s h

theorem scanNumber_id {s : List Char} (h : NoDigit s) : scanNumber s = s :=
  @runScan_id _ _ _ (fun _ l => NoDigit l)
    (fun _ c cs hl => numberRule_none hl) (fun _ _ _ hl => noDigit_tail hl)
    s.length () s h

theorem dollF_id : ∀ (f : Nat) (s : List Char), NoDigit s → dollF f s = some s := by
  intro f
  induction f with
  | zero => intro s _; rfl
  | succ f ih =>
    intro s hs
    cases s with
    | nil => rfl
    | cons c cs =>
      show dollF (f + 1) (c :: cs) = some (c :: cs)
      simp only [dollF]
      by_cases hc : c = '$'
      · rw [if_pos hc]
        have hm : trimToDigit (cs.takeWhile dollarClass) = [] :=
          trimToDigit_nil
            (fun x hx => noDigit_tail hs x (List.takeWhile_subset _ hx))
        rw [hm]
        simp [ih cs (noDigit_tail hs)]
      · rw [if_neg hc]
        simp [ih cs (noDigit_tail hs)]

theorem scanDollars_id {s : List Char} (h : NoDigit s) : scanDollars s = some s :=
  dollF_id s.length s h

/-- The replacement of every `[0-9]+` match is digit-free, hence so is
the output of the final pass. -/
theorem scanNumber_out_noDigit (s : List Char) : NoDigit (scanNumber s) := by
  apply runScan_noneOf_elim (P := DigitP) _ _ s.length () s le_rfl
  · intro st s' rep st2 k h
    cases s' with
    | nil => simp [numberRule] at h
    | cons c cs =>
      by_cases hc : isDigitB c
      · simp [numberRule, hc] at h
        rw [← h.1]
        exact expandNumber_noDigit _
      · simp [numberRule, hc] at h
  · intro st c cs h
    intro hd
    have hc : isDigitB c = true := hd
    simp [numberRule, hc] at h

/-- First half of C6: one pass of `normalize_numbers` leaves no digit,
and a second pass returns its input unchanged (and raises no error). -/
theorem normalizeNumbers_idem {s y : List Char}
    (h : normalizeNumbers s = some y) :
    NoDigit y ∧ normalizeNumbers y = some y := by
  obtain ⟨u, hu, hy⟩ := Option.map_eq_some'.mp h
  have hnd : NoDigit y := by
    rw [← hy]
    exact scanNumber_out_noDigit _
  refine ⟨hnd, ?_⟩
  unfold normalizeNumbers
  rw [scanComma_id hnd, scanPounds_id hnd, scanDollars_id hnd,
    Option.map_some', scanDecimal_id hnd, scanOrdinal_id hnd, scanNumber_id hnd]

/-!  ## C6 (second half): `expand_abbreviations` is idempotent

Strategy: after one pass of a single abbreviation rule no occurrence of
its pattern remains (replacements are all-letter words that can neither
contain the pattern — whose last character is a period — nor complete
one, and they destroy rather than create `\b` boundaries), and a later
rule cannot recreate an occurrence either.  A text without occurrences
is a fixed point of the pass. -/

/-- Is there a case-insensitive occurrence of `pat` at a `\b` boundary?
`st` is true when the previous character is a word character. -/
def hasMatch (pat : List Char) : Bool → List Char → Bool
  | _, [] => false
  | st, c :: cs => (!st && swCI pat (c :: cs)) || hasMatch pat (wcB c) cs

/-- Word-character context after scanning `a` starting from context `st`. -/
def ctxA (st : Bool) : List Char → Bool
  | [] => st
  | c :: cs => ctxA (wcB c) cs

theorem getD_mem_of_lt : ∀ (L : List Char) (i : Nat) (d : Char),
    i < L.length → L.getD i d ∈ L := by
  intro L
  induction L with
  | nil => intro i d h; simp at h
  | cons x t ih =>
    intro i d h
    cases i with
    | zero => simp
    | succ i =>
      simp only [List.getD_cons_succ]
      exact List.mem_cons_of_mem x (ih i d (by simpa using h))

theorem lowerChar_mem_lower {c : Char} (h : 65 ≤ c.toNat ∧ c.toNat ≤ 90) :
    lowerChar c ∈ lowerLetters := by
  unfold lowerChar
  rw [if_pos h]
  have hlen : lowerLetters.length = 26 := rfl
  exact getD_mem_of_lt _ _ _ (by omega)

theorem lowerChar_eq_dot {c : Char} (h : lowerChar c = '.') : c = '.' := by
  by_cases hc : 65 ≤ c.toNat ∧ c.toNat ≤ 90
  · exfalso
    have hm := lowerChar_mem_lower hc
    rw [h] at hm
    exact absurd hm (by decide)
  · unfold lowerChar at h
    rw [if_neg hc] at h
    exact h

theorem lowerChar_ne_dot {b : Char} (hb : isAlphaB b = true) :
    ¬ lowerChar b = '.' := by
  intro h
  have hbd := lowerChar_eq_dot h
  rw [hbd] at hb
  exact absurd hb (by decide)

theorem alpha_wcB {c : Char} (h : isAlphaB c = true) : wcB c = true := by
  unfold isAlphaB at h
  simp [wcB, h]

theorem swCI_length_le : ∀ (p s : List Char), swCI p s = true → p.length ≤ s.length := by
  intro p
  induction p with
  | nil => intro s _; simp
  | cons a p' ih =>
    intro s h
    cases s with
    | nil => simp [swCI] at h
    | cons c cs =>
      simp only [swCI, Bool.and_eq_true] at h
      simpa using ih cs h.2

theorem swCI_take_false :
    ∀ (p r z : List Char), swCI (p.take r.length) r = false →
      swCI p (r ++ z) = false := by
  intro p
  induction p with
  | nil => intro r z h; rw [List.take_nil] at h; simp [swCI] at h
  | cons a p' ih =>
    intro r z h
    cases r with
    | nil => simp [swCI] at h
    | cons b r' =>
      simp only [List.length_cons, List.take_succ_cons, swCI] at h
      show ((lowerChar b == a) && swCI p' (r' ++ z)) = false
      cases hba : (lowerChar b == a) with
      | false => rfl
      | true =>
        rw [hba] at h
        simp only [Bool.true_and] at h ⊢
        exact ih r' z h

theorem swCI_alphaDot :
    ∀ (p r z : List Char), p.getLast? = some '.' → p.length ≤ r.length →
      (∀ c ∈ r, isAlphaB c = true) → swCI p (r ++ z) = false := by
  intro p
  induction p with
  | nil => intro r z h; simp at h
  | cons a p' ih =>
    intro r z hlast hlen hal
    cases r with
    | nil => simp at hlen
    | cons b r' =>
      show ((lowerChar b == a) && swCI p' (r' ++ z)) = false
      cases p' with
      | nil =>
        have ha : a = '.' := by simpa using hlast
        have hb := lowerChar_ne_dot (hal b (List.mem_cons_self b r'))
        have hf : (lowerChar b == a) = false := by
          rw [ha]
          exact beq_eq_false_iff_ne.mpr hb
        rw [hf]
        rfl
      | cons a2 p'' =>
        have hlast' : (a2 :: p'').getLast? = some '.' := by
          rw [List.getLast?_cons_cons] at hlast
          exact hlast
        have hsw : swCI (a2 :: p'') (r' ++ z) = false :=
          ih r' z hlast' (by simpa using hlen)
            (fun c hc => hal c (List.mem_cons_of_mem b hc))
        rw [hsw]
        simp

theorem ctxA_of_getLast :
    ∀ (a : List Char) (st : Bool) (c : Char), a.getLast? = some c →
      ctxA st a = wcB c := by
  intro a
  induction a with
  | nil => intro st c h; simp at h
  | cons x t ih =>
    intro st c h
    cases t with
    | nil =>
      have : c = x := by simpa using h.symm
      subst this
      rfl
    | cons y t' =>
      rw [List.getLast?_cons_cons] at h
      show ctxA (wcB x) (y :: t') = wcB c
      exact ih (wcB x) c h

theorem hasMatch_append_ctx {p : List Char} :
    ∀ (a b : List Char) (st : Bool), hasMatch p st (a ++ b) = false →
      hasMatch p (ctxA st a) b = false := by
  intro a
  induction a with
  | nil => intro b st h; exact h
  | cons x a' ih =>
    intro b st h
    simp only [List.cons_append, hasMatch, Bool.or_eq_false_iff] at h
    exact ih b (wcB x) h.2

theorem swCI_take_getLast :
    ∀ (q s : List Char), swCI q s = true → q.getLast? = some '.' →
      (s.take q.length).getLast? = some '.' := by
  intro q
  induction q with
  | nil => intro s _ h; simp at h
  | cons a q' ih =>
    intro s h hlast
    cases s with
    | nil => simp [swCI] at h
    | cons c cs =>
      simp only [swCI, Bool.and_eq_true] at h
      cases q' with
      | nil =>
        have ha : a = '.' := by simpa using hlast
        have hc : c = '.' := by
          apply lowerChar_eq_dot
          rw [← ha]
          exact beq_iff_eq.mp h.1
        simp [hc]
      | cons a2 q'' =>
        rw [List.getLast?_cons_cons] at hlast
        have hih := ih cs h.2 hlast
        cases cs with
        | nil => simp [swCI] at h
        | cons c2 cs' =>
          show ((c :: (c2 :: cs').take (a2 :: q'').length)).getLast? = some '.'
          simp only [List.length_cons, List.take_succ_cons] at hih ⊢
          rw [List.getLast?_cons_cons]
          exact hih

theorem abbrevRule_some {pat rep : List Char} {st : Bool} {s r2 : List Char}
    {st2 : Bool} {k : Nat}
    (h : abbrevRule pat rep st s = some (r2, st2, k)) :
    r2 = rep ∧ st2 = false ∧ k = pat.length - 1 ∧ st = false ∧
      swCI pat s = true := by
  unfold abbrevRule at h
  split at h
  · rename_i hcond
    have hinj := Option.some.inj h
    rw [Prod.mk.injEq, Prod.mk.injEq] at hinj
    obtain ⟨h1, h2, h3⟩ := hinj
    simp only [Bool.and_eq_true, Bool.not_eq_true'] at hcond
    exact ⟨h1.symm, h2.symm, h3.symm, hcond.1, hcond.2⟩
  · exact Option.noConfusion h

theorem abbrevRule_none_elim {pat rep : List Char} {s : List Char}
    (h : abbrevRule pat rep false s = none) : swCI pat s = false := by
  unfold abbrevRule at h
  split at h
  · exact Option.noConfusion h
  · rename_i hcond
    cases hs : swCI pat s with
    | false => rfl
    | true =>
      exact absurd (show (!false && swCI pat s) = true by simp [hs]) hcond

theorem hasMatch_alpha_run {p : List Char} :
    ∀ (rs z : List Char), (∀ c ∈ rs, isAlphaB c = true) →
      hasMatch p true (rs ++ z) = hasMatch p true z := by
  intro rs
  induction rs with
  | nil => intro z _; rfl
  | cons r rs' ih =>
    intro z hal
    show ((!true && swCI p (r :: rs' ++ z)) || hasMatch p (wcB r) (rs' ++ z)) =
      hasMatch p true z
    rw [alpha_wcB (hal r (List.mem_cons_self r rs'))]
    simp only [Bool.not_true, Bool.false_and, Bool.false_or]
    exact ih z (fun c hc => hal c (List.mem_cons_of_mem r hc))

theorem hasMatch_repl {p r : List Char} (hne : r ≠ [])
    (hal : ∀ c ∈ r, isAlphaB c = true)
    (hds : ∀ z', swCI p (r ++ z') = false) :
    ∀ (st : Bool) (z : List Char), hasMatch p st (r ++ z) = hasMatch p true z := by
  intro st z
  cases r with
  | nil => exact absurd rfl hne
  | cons r0 rs =>
    show ((!st && swCI p (r0 :: (rs ++ z))) || hasMatch p (wcB r0) (rs ++ z)) =
      hasMatch p true z
    have h1 : swCI p ((r0 :: rs) ++ z) = false := hds z
    rw [List.cons_append] at h1
    rw [h1]
    rw [alpha_wcB (hal r0 (List.mem_cons_self r0 rs))]
    simp only [Bool.and_false, Bool.false_or]
    exact hasMatch_alpha_run rs z (fun c hc => hal c (List.mem_cons_of_mem r0 hc))

theorem suffix_getLast_dot {q p : List Char} (hq : q <:+ p) (hne : q ≠ [])
    (hp : p.getLast? = some '.') : q.getLast? = some '.' := by
  obtain ⟨t, ht⟩ := hq
  rw [← ht] at hp
  rw [List.getLast?_append_of_ne_nil t hne] at hp
  exact hp

/-- The well-formedness conditions relating a pattern to a replacement
(both of the same rule or of two different rules of the table). -/
def abbrevOk (p r : List Char) : Prop :=
  p ≠ [] ∧ p.getLast? = some '.' ∧ r ≠ [] ∧ (∀ c ∈ r, isAlphaB c = true) ∧
    p.length ≤ r.length + 1 ∧ swCI (p.take r.length) r = false

instance (p r : List Char) : Decidable (abbrevOk p r) := by
  unfold abbrevOk
  infer_instance

/-- A failed case-insensitive match at the head survives the scan of the
tail: if the pattern does not match `c :: cs`, it does not match `c`
followed by the scanned tail either. -/
theorem abbrev_pre {p pat r : List Char} (hok : abbrevOk p r) :
    ∀ (f : Nat) (s : List Char) (st : Bool) (q : List Char), q <:+ p →
      s.length ≤ f →
      swCI q (runScan (abbrevRule pat r) wordStep f st s) = true →
      swCI q s = true := by
  obtain ⟨hpne, hpdot, hrne, hral, hplen, htake⟩ := hok
  intro f
  induction f with
  | zero =>
    intro s st q _ _ h
    exact h
  | succ f ih =>
    intro s st q hq hlen h
    cases s with
    | nil => exact h
    | cons c cs =>
      cases hr : abbrevRule pat r st (c :: cs) with
      | some v =>
        obtain ⟨r2, st2, k⟩ := v
        obtain ⟨hr2, hst2, hk, _, _⟩ := abbrevRule_some hr
        simp only [runScan, hr] at h
        rw [hr2] at h
        cases q with
        | nil => rfl
        | cons a q' =>
          exfalso
          have hqdot : (a :: q').getLast? = some '.' :=
            suffix_getLast_dot hq (by simp) hpdot
          have hqlen : (a :: q').length ≤ p.length := hq.sublist.length_le
          by_cases hql : (a :: q').length ≤ r.length
          · rw [swCI_alphaDot (a :: q') r _ hqdot hql hral] at h
            exact Bool.noConfusion h
          · have hqp : (a :: q') = p :=
              hq.eq_of_length (by omega)
            rw [hqp] at h
            rw [swCI_take_false p r _ htake] at h
            exact Bool.noConfusion h
      | none =>
        simp only [runScan, hr] at h
        cases q with
        | nil => rfl
        | cons a q' =>
          simp only [swCI, Bool.and_eq_true] at h ⊢
          refine ⟨h.1, ?_⟩
          exact ih cs (wordStep st c) q'
            ((List.suffix_cons a q').trans hq) (Nat.lt_succ_iff.mp hlen) h.2

/-- A head position where the pattern does not match the input keeps not
matching against the scanned tail. -/
theorem abbrev_pre_head {p pat r : List Char} (hok : abbrevOk p r)
    (f : Nat) (c : Char) (cs : List Char) (st : Bool)
    (hsw : swCI p (c :: cs) = false) (hf : cs.length ≤ f) :
    swCI p (c :: runScan (abbrevRule pat r) wordStep f st cs) = false := by
  cases hsw2 : swCI p (c :: runScan (abbrevRule pat r) wordStep f st cs) with
  | false => rfl
  | true =>
    exfalso
    cases p with
    | nil => exact absurd rfl hok.1
    | cons p0 pt =>
      simp only [swCI, Bool.and_eq_true] at hsw2
      have hpt : swCI pt cs = true :=
        abbrev_pre hok f cs st pt (List.suffix_cons p0 pt) hf hsw2.2
      have : swCI (p0 :: pt) (c :: cs) = true := by
        simp only [swCI, Bool.and_eq_true]
        exact ⟨hsw2.1, hpt⟩
      rw [this] at hsw
      exact Bool.noConfusion hsw

/-- Fact `wcB '.' = false`: a period ends any `\b` word context. -/
theorem wcB_dot : wcB '.' = false := by decide

/-- Scanning with one rule preserves the absence of matches of another
pattern `p` (subject to the table conditions), for any output-side
context at least as word-like as the input-side one. -/
theorem abbrev_preserve {p pat r : List Char} (hok : abbrevOk p r)
    (hpat : pat ≠ []) (hpdot : pat.getLast? = some '.') :
    ∀ (f : Nat) (s : List Char) (st1 st2 : Bool), s.length ≤ f →
      (st1 = true → st2 = true) → hasMatch p st1 s = false →
      hasMatch p st2 (runScan (abbrevRule pat r) wordStep f st1 s) = false := by
  intro f
  induction f with
  | zero =>
    intro s st1 st2 hlen _ _
    have : s = [] := List.eq_nil_of_length_eq_zero (Nat.le_zero.mp hlen)
    subst this
    rfl
  | succ f ih =>
    intro s st1 st2 hlen hctx hm
    cases s with
    | nil => rfl
    | cons c cs =>
      cases hr : abbrevRule pat r st1 (c :: cs) with
      | some v =>
        obtain ⟨r2, st2x, k⟩ := v
        obtain ⟨hr2, hst2x, hk, hst1, hsw⟩ := abbrevRule_some hr
        simp only [runScan, hr]
        rw [hr2, hst2x, hk]
        have hplen1 : 1 ≤ pat.length := by
          cases hpe : pat with
          | nil => exact absurd hpe hpat
          | cons x xs => simp
        have hdrop : cs.drop (pat.length - 1) = (c :: cs).drop pat.length := by
          have hsp : pat.length - 1 + 1 = pat.length := by omega
          rw [← hsp]
          rfl
        rw [hdrop]
        have hds : ∀ z, swCI p (r ++ z) = false :=
          fun z => swCI_take_false p r z hok.2.2.2.2.2
        rw [hasMatch_repl hok.2.2.1 hok.2.2.2.1 hds st2 _]
        apply ih ((c :: cs).drop pat.length) false true
        · rw [List.length_drop]
          simp only [List.length_cons] at hlen ⊢
          omega
        · intro h; rfl
        · have hsplit : (c :: cs).take pat.length ++ (c :: cs).drop pat.length =
              c :: cs := List.take_append_drop _ _
          have halast : ((c :: cs).take pat.length).getLast? = some '.' :=
            swCI_take_getLast pat (c :: cs) hsw hpdot
          have hm2 : hasMatch p st1
              ((c :: cs).take pat.length ++ (c :: cs).drop pat.length) = false := by
            rw [hsplit]
            exact hm
          have := hasMatch_append_ctx _ _ st1 hm2
          rw [ctxA_of_getLast _ st1 '.' halast, wcB_dot] at this
          exact this
      | none =>
        simp only [runScan, hr]
        simp only [hasMatch, Bool.or_eq_false_iff] at hm ⊢
        constructor
        · cases hst2 : st2 with
          | true => simp
          | false =>
            have hst1 : st1 = false := by
              cases hst1 : st1 with
              | false => rfl
              | true => exact absurd (hctx hst1) (by simp [hst2])
            have hswf : swCI p (c :: cs) = false := by
              have := hm.1
              rw [hst1] at this
              simpa using this
            have := @abbrev_pre_head p pat r hok f c cs (wordStep st1 c) hswf
              (Nat.lt_succ_iff.mp hlen)
            simp [this]
        · exact ih cs (wcB c) (wcB c) (Nat.lt_succ_iff.mp hlen) (fun h => h) hm.2

/-- After one pass of a rule, no match of its own pattern remains. -/
theorem abbrev_self {p r : List Char} (hok : abbrevOk p r) :
    ∀ (f : Nat) (s : List Char) (st1 st2 : Bool), s.length ≤ f →
      (st1 = true → st2 = true) →
      hasMatch p st2 (runScan (abbrevRule p r) wordStep f st1 s) = false := by
  intro f
  induction f with
  | zero =>
    intro s st1 st2 hlen _
    have : s = [] := List.eq_nil_of_length_eq_zero (Nat.le_zero.mp hlen)
    subst this
    rfl
  | succ f ih =>
    intro s st1 st2 hlen hctx
    cases s with
    | nil => rfl
    | cons c cs =>
      cases hr : abbrevRule p r st1 (c :: cs) with
      | some v =>
        obtain ⟨r2, st2x, k⟩ := v
        obtain ⟨hr2, hst2x, hk, hst1, hsw⟩ := abbrevRule_some hr
        simp only [runScan, hr]
        rw [hr2, hst2x, hk]
        have hds : ∀ z, swCI p (r ++ z) = false :=
          fun z => swCI_take_false p r z hok.2.2.2.2.2
        rw [hasMatch_repl hok.2.2.1 hok.2.2.2.1 hds st2 _]
        apply ih (cs.drop (p.length - 1)) false true
        · have := List.length_drop (p.length - 1) cs
          simp only [List.length_cons] at hlen
          omega
        · intro h; rfl
      | none =>
        simp only [runScan, hr]
        simp only [hasMatch, Bool.or_eq_false_iff]
        constructor
        · cases hst2 : st2 with
          | true => simp
          | false =>
            have hst1 : st1 = false := by
              cases hst1 : st1 with
              | false => rfl
              | true => exact absurd (hctx hst1) (by simp [hst2])
            have hswf : swCI p (c :: cs) = false := by
              apply @abbrevRule_none_elim p r (c :: cs)
              rw [← hst1]
              exact hr
            have := @abbrev_pre_head p p r hok f c cs (wordStep st1 c) hswf
              (Nat.lt_succ_iff.mp hlen)
            simp [this]
        · exact ih cs (wcB c) (wcB c) (Nat.lt_succ_iff.mp hlen) (fun h => h)

/-- A text without matches is a fixed point of the pass. -/
theorem abbrev_fix {p r : List Char} :
    ∀ (f : Nat) (st : Bool) (s : List Char), hasMatch p st s = false →
      runScan (abbrevRule p r) wordStep f st s = s := by
  apply @runScan_id _ _ _ (fun st l => hasMatch p st l = false)
  · intro st c cs hInv
    simp only [hasMatch, Bool.or_eq_false_iff] at hInv
    unfold abbrevRule
    rw [hInv.1]
    rfl
  · intro st c cs hInv
    simp only [hasMatch, Bool.or_eq_false_iff] at hInv
    exact hInv.2

/-- Every pattern/replacement pair of the table (own and crossed)
satisfies the conditions: patterns end in a period, replacements are
nonempty all-letter words at most one shorter than any pattern, and no
replacement begins (case-insensitively) like any pattern. -/
theorem abbrevConds : ∀ a ∈ abbrevTable, ∀ b ∈ abbrevTable, abbrevOk a.1 b.2 := by
  decide

theorem preserve_fold {p : List Char} :
    ∀ (ts : List (List Char × List Char)) (s : List Char),
      (∀ q ∈ ts, abbrevOk p q.2 ∧ abbrevOk q.1 q.2) →
      hasMatch p false s = false →
      hasMatch p false (ts.foldl (fun t q => scanAbbrev q.1 q.2 t) s) = false := by
  intro ts
  induction ts with
  | nil => intro s _ hm; exact hm
  | cons a ts' ih =>
    intro s hcond hm
    rw [List.foldl_cons]
    apply ih (scanAbbrev a.1 a.2 s)
      (fun q hq => hcond q (List.mem_cons_of_mem a hq))
    have ha := hcond a (List.mem_cons_self a ts')
    exact abbrev_preserve ha.1 ha.2.1 ha.2.2.1 s.length s false false le_rfl
      (fun h => h) hm

theorem nomatch_fold :
    ∀ (ts : List (List Char × List Char)) (s : List Char)
      (q0 : List Char × List Char), q0 ∈ ts →
      (∀ a ∈ ts, ∀ b ∈ ts, abbrevOk a.1 b.2) →
      hasMatch q0.1 false (ts.foldl (fun t q => scanAbbrev q.1 q.2 t) s) = false := by
  intro ts
  induction ts with
  | nil => intro s q0 hmem; simp at hmem
  | cons a ts' ih =>
    intro s q0 hmem hcond
    rw [List.foldl_cons]
    rcases List.mem_cons.mp hmem with he | hmem2
    · subst he
      apply preserve_fold ts' (scanAbbrev q0.1 q0.2 s)
      · intro q hq
        exact ⟨hcond q0 (List.mem_cons_self q0 ts') q (List.mem_cons_of_mem q0 hq),
          hcond q (List.mem_cons_of_mem q0 hq) q (List.mem_cons_of_mem q0 hq)⟩
      · exact abbrev_self
          (hcond q0 (List.mem_cons_self q0 ts') q0 (List.mem_cons_self q0 ts'))
          s.length s false false le_rfl (fun h => h)
    · exact ih (scanAbbrev a.1 a.2 s) q0 hmem2
        (fun x hx y hy =>
          hcond x (List.mem_cons_of_mem a hx) y (List.mem_cons_of_mem a hy))

theorem fix_fold :
    ∀ (ts : List (List Char × List Char)) (u : List Char),
      (∀ q ∈ ts, hasMatch q.1 false u = false) →
      ts.foldl (fun t q => scanAbbrev q.1 q.2 t) u = u := by
  intro ts
  induction ts with
  | nil => intro u _; rfl
  | cons a ts' ih =>
    intro u h
    rw [List.foldl_cons]
    have hfix : scanAbbrev a.1 a.2 u = u :=
      abbrev_fix u.length false u (h a (List.mem_cons_self a ts'))
    rw [hfix]
    exact ih u (fun q hq => h q (List.mem_cons_of_mem a hq))

/-- Second half of C6: `expand_abbreviations` is idempotent. -/
theorem expandAbbreviations_idem (s : List Char) :
    expandAbbreviations (expandAbbreviations s) = expandAbbreviations s := by
  unfold expandAbbreviations
  apply fix_fold
  intro q hq
  exact nomatch_fold abbrevTable s q hq abbrevConds

/-- C6.  The Numeral Expander and the Abbreviation Expander are idempotent:
whenever `normalize_numbers` produces an output, that output has no
residual digit and feeding it back returns it unchanged (raising no
error); and applying `expand_abbreviations` to its own output leaves the
output unchanged, for every input text. -/
theorem c6_expander_idempotence :
    (∀ s y : List Char, normalizeNumbers s = some y →
        NoDigit y ∧ normalizeNumbers y = some y) ∧
      (∀ s : List Char,
        expandAbbreviations (expandAbbreviations s) = expandAbbreviations s) :=
  ⟨fun _ _ h => normalizeNumbers_idem h, expandAbbreviations_idem⟩

/-- Witness for `c6_expander_idempotence` at a concrete input. -/
theorem c6_expander_idempotence_witness :
    (NoDigit "see twelve cats".data ∧
        normalizeNumbers "see twelve cats".data = some "see twelve cats".data) ∧
      expandAbbreviations (expandAbbreviations "Dr. Smith".data) =
        expandAbbreviations "Dr. Smith".data :=
  ⟨c6_expander_idempotence.1 "see 12 cats".data "see twelve cats".data (by rfl),
   c6_expander_idempotence.2 "Dr. Smith".data⟩
